import Mathlib

/-! iquedec: LZ77 frame decoder, palette expansion and frame reconstruction

A shallow embedding of `iquedec.c` and a verification of its behaviour.

Conventions of the embedding:

* a `uint8_t` in memory is a `Byte` (`Fin 256`), a `uint16_t` palette entry a
  `Half` (`Fin 65536`); computed integers are `Nat` with an explicit `%` where
  the C code narrows a value;
* a buffer reached through a pointer is a function from offsets to cells.  The
  input block is read at offsets `0, 1, 2, ...` of `in`; the memory written
  through `out` is addressed by an `Int` offset relative to the first byte of
  the output buffer, so that `out[-distance]` is defined also below the buffer;
* multi-byte loads (`*(uint32_t *)in`, `*(uint16_t *)in`) are little-endian,
  as on the targets the program is written for;
* in `*out++ = out[-distance]` the right-hand side is read relative to the
  cursor before the increment;
* `main` is taken from the point where both files are open.  The ROM file is a
  list of bytes with a position; `fseek` sets the position to its offset (a
  32-bit unsigned value, held in a wider `long`), `fread` copies the bytes the
  file still has and its return value is dropped, as in the source.  The calls
  of the muxer are recorded as the list of the buffers handed to it.  Static
  arrays start zeroed, and the cells past the end of an array read as zero.
-/

namespace Iquedec

/-! ## Data model -/

/-- One `uint8_t` cell. -/
abbrev Byte := Fin 256

/-- One `uint16_t` cell. -/
abbrev Half := Fin 65536

/-- The bytes seen through `uint8_t *in`, by offset. -/
abbrev Input := Nat → Byte

/-- The memory seen through `uint8_t *out`, by offset from the first byte of the
output buffer; negative offsets lie below the buffer. -/
abbrev Memory := Int → Byte

def GBA_WIDTH : Nat := 240
def GBA_HEIGHT : Nat := 160
def GBA_LENGTH : Nat := GBA_WIDTH * GBA_HEIGHT
def GBA_PALETTE_ENTRIES : Nat := 256

/-- Narrowing store of an integer into a `uint8_t`. -/
def toByte (n : Nat) : Byte := ⟨n % 256, Nat.mod_lt n (by decide)⟩

/-- The macro `CONVERT_555_888(n)`. -/
def CONVERT_555_888 (n : Nat) : Nat :=
  (((n &&& 0x7c00) <<< 9) ||| ((n &&& 0x3e0) <<< 6)) ||| ((n &&& 0x1f) <<< 3)

/-! ## decompress -/

/-- The load `*(uint32_t *)in` at offset `i`. -/
def load32 (inp : Input) (i : Nat) : Nat :=
  (inp i).val + 256 * (inp (i + 1)).val + 65536 * (inp (i + 2)).val
    + 16777216 * (inp (i + 3)).val

/-- The load `*(uint16_t *)in` at offset `i`. -/
def load16 (inp : Input) (i : Nat) : Nat :=
  (inp i).val + 256 * (inp (i + 1)).val

/-- The length `*(uint32_t *)in >> 8` declared by the header of a block. -/
def declaredLength (inp : Input) : Nat := load32 inp 0 >>> 8

/-- The `uint16_t distance` decoded from a token. -/
def tokenDistance (token : Nat) : Nat :=
  ((((token &&& 0x0f) <<< 8) ||| ((token &&& 0xff00) >>> 8)) + 1) % 65536

/-- The `uint16_t length` decoded from a token. -/
def tokenLength (token : Nat) : Nat :=
  (((token &&& 0xf0) >>> 4) + 3) % 65536

/-- The store `p[i] = b`. -/
def store (mem : Memory) (i : Int) (b : Byte) : Memory :=
  fun j => if j = i then b else mem j

/-- The variables of `decompress` that change while it runs: the offset of `in`
from the start of the block, the offset of `out` from the start of the output
buffer, and the memory written through `out`. -/
structure State where
  ip : Nat
  op : Nat
  mem : Memory

/-- The loop `while (length--) *out++ = out[-distance];`. -/
def copyLoop (distance : Nat) : Nat → State → State
  | 0, s => s
  | length + 1, s =>
    copyLoop distance length
      { s with op := s.op + 1,
               mem := store s.mem s.op (s.mem ((s.op : Int) - (distance : Int))) }

/-- The body of the `for` loop: one token, chosen by `flags & mask`. -/
def tokenStep (inp : Input) (flags mask : Nat) (s : State) : State :=
  if flags &&& mask ≠ 0 then
    let token := load16 inp s.ip
    copyLoop (tokenDistance token) (tokenLength token) { s with ip := s.ip + 2 }
  else
    { ip := s.ip + 1, op := s.op + 1, mem := store s.mem s.op (inp s.ip) }

/-- The loop `for (...; mask; mask >>= 1)`, entered with the given `mask`.  The
first argument bounds the number of passes; eight are enough from `0x80`. -/
def forLoop (inp : Input) (flags : Nat) : Nat → Nat → State → State
  | 0, _, s => s
  | fuel + 1, mask, s =>
    if mask = 0 then s
    else forLoop inp flags fuel (mask >>> 1) (tokenStep inp flags mask s)

/-- One pass of the `while` body: `flags = *in++`, `mask = 0x80`, then the
`for` loop. -/
def group (inp : Input) (s : State) : State :=
  forLoop inp (inp s.ip).val 8 0x80 { s with ip := s.ip + 1 }

/-- The loop `while (out < end)`, with `stop` the offset of `end`.  The first
argument bounds the number of passes; the result is `none` when the bound is
reached with `out < end` still true. -/
def whileLoop (inp : Input) (stop : Nat) : Nat → State → Option State
  | 0, s => if s.op < stop then none else some s
  | fuel + 1, s =>
    if s.op < stop then whileLoop inp stop fuel (group inp s) else some s

/-- The function `decompress(in, out)`, run on the memory `mem` around `out`.
Every pass of the `while` loop moves `out` forward, so the declared length bounds
the number of passes. -/
def decompress (inp : Input) (mem : Memory) : Option State :=
  whileLoop inp (declaredLength inp) (declaredLength inp) ⟨4, 0, mem⟩

/-- A block given by its first bytes, zero beyond them. -/
def blockOf (bytes : List Nat) : Input := fun i => toByte (bytes.getD i 0)

/-- The first `n` bytes of the output buffer. -/
def outputPrefix (mem : Memory) (n : Nat) : List Nat :=
  (List.range n).map (fun i => (mem (i : Int)).val)

/-- Two states of `decompress` with the same cursors whose memories agree below the
output cursor. -/
def AgreeBelow (s1 s2 : State) : Prop :=
  s1.ip = s2.ip ∧ s1.op = s2.op ∧ ∀ a : Int, a < (s1.op : Int) → s1.mem a = s2.mem a

/-! ## convert_frame -/

/-- The store `palette[i] = v` into the `uint32_t` array. -/
def storeWord (palette : Nat → Nat) (i v : Nat) : Nat → Nat :=
  fun j => if j = i then v % 4294967296 else palette j

/-- The loop `for (i = ...; i < GBA_PALETTE_ENTRIES; i++) palette[i] =
CONVERT_555_888(in_palette[i]);` with `n` passes left, at index `i`. -/
def paletteLoop (in_palette : Nat → Half) : Nat → Nat → (Nat → Nat) → (Nat → Nat)
  | 0, _, palette => palette
  | n + 1, i, palette =>
    paletteLoop in_palette n (i + 1)
      (storeWord palette i (CONVERT_555_888 (in_palette i).val))

/-- The three stores `*out++ = px >> 16; *out++ = px >> 8; *out++ = px;`, as the
bytes they append to what has been written through `out`. -/
def pixelBytes (px : Nat) : List Byte :=
  [toByte (px >>> 16), toByte (px >>> 8), toByte px]

/-- The loop `for (x = ...; x < GBA_WIDTH; x++)` of row `y`, with `n` passes left,
at column `x`; `out` is the list of bytes written so far. -/
def xLoop (image : Memory) (palette : Nat → Nat) (y : Nat) :
    Nat → Nat → List Byte → List Byte
  | 0, _, out => out
  | n + 1, x, out =>
    xLoop image palette y n (x + 1)
      (out ++ pixelBytes (palette (image ((y * GBA_WIDTH + x : Nat) : Int)).val))

/-- The loop `for (y = ...; y >= 0; y--)`: the argument `y + 1` stands for the
row `y` about to be done, `0` for the exit. -/
def yLoop (image : Memory) (palette : Nat → Nat) : Nat → List Byte → List Byte
  | 0, out => out
  | y + 1, out => yLoop image palette y (xLoop image palette y GBA_WIDTH 0 out)

/-- The function `convert_frame(in_image, in_palette, out)`.  The arguments `image` and
`palette` are the two static arrays as the previous call left them; `image` is the
memory around the array, whose cells are the offsets `0 .. GBA_LENGTH - 1`.  The result
is the list of bytes written through `out`. -/
def convert_frame (in_image : Input) (in_palette : Nat → Half)
    (image : Memory) (palette : Nat → Nat) : Option (List Byte) :=
  (decompress in_image image).map fun s =>
    yLoop s.mem (paletteLoop in_palette GBA_PALETTE_ENTRIES 0 palette) GBA_HEIGHT []

/-! ## The audio conversion of main -/

def IQUE_AUDIO_LENGTH : Nat := 0xeb6c0

/-- The update `b ^= 0x80` of a `uint8_t`. -/
def flipSign (b : Byte) : Byte := toByte (b.val ^^^ 0x80)

/-- The loop `for (i = ...; i < n; i++) audio[i] ^= 0x80;` with `k` passes left, at
index `i`. -/
def audioLoop : Nat → Nat → List Byte → List Byte
  | 0, _, audio => audio
  | k + 1, i, audio => audioLoop k (i + 1) (audio.set i (flipSign (audio.getD i 0)))

/-- The conversion loop of `main` over a buffer of `n` samples; `main` runs it with
`n = IQUE_AUDIO_LENGTH`. -/
def convertAudio (n : Nat) (audio : List Byte) : List Byte := audioLoop n 0 audio

/-! ## main -/

def GBA_ROM_LOAD_ADDRESS : Nat := 0x8000000
def IQUE_FRAME_TABLE_LOCATION : Nat := 0xb0bfb8
def IQUE_PALETTE_TABLE_LOCATION : Nat := 0xb0d8d0
def IQUE_AUDIO_LOCATION : Nat := 0xce2c80
def IQUE_NUM_FRAMES : Nat := 1606

/-- The macro `SAFE_LENGTH`, with `sizeof(uint16_t) = 2`. -/
def SAFE_LENGTH : Nat := GBA_PALETTE_ENTRIES * 2 + GBA_LENGTH * 2

/-- Narrowing of an integer to a `uint16_t`. -/
def toHalf (n : Nat) : Half := ⟨n % 65536, Nat.mod_lt n (by decide)⟩

/-- The entry `i` of a `uint16_t` array held in the bytes `buf`. -/
def halfAt (buf : Input) (i : Nat) : Half := toHalf (load16 buf (2 * i))

/-- The expression `a - GBA_ROM_LOAD_ADDRESS` on a `uint32_t a`, in 32-bit unsigned
arithmetic. -/
@[irreducible]
def fileOffset (a : Nat) : Nat := (a + 4294967296 - GBA_ROM_LOAD_ADDRESS) % 4294967296

/-- The stream `in`: the bytes of the ROM file and the file position. -/
structure File where
  bytes : List Byte
  pos : Nat

/-- The call `fseek(in, offset, SEEK_SET)`. -/
def fseek (f : File) (offset : Nat) : File := { f with pos := offset }

/-- The call `fread(buf, size, count, in)` with `size * count = n`: the bytes the file
still has from its position on, at most `n`, overwrite the start of `buf`, whose other
cells keep what they held, and the position moves past the bytes read.  The value
returned by `fread` is dropped, as `main` drops it. -/
def fread (f : File) (n : Nat) (buf : Input) : Input × File :=
  (fun i => if i < min n (f.bytes.length - f.pos) then f.bytes.getD (f.pos + i) 0 else buf i,
   { f with pos := f.pos + min n (f.bytes.length - f.pos) })

/-- A buffer handed to the muxer: by `gwavi_add_frame` or by `gwavi_add_audio`. -/
inductive Emitted where
  | video (buffer : List Byte)
  | audio (buffer : List Byte)

/-- The static arrays of `convert_frame` as a call leaves them. -/
def convert_frame_statics (in_image : Input) (in_palette : Nat → Half)
    (image : Memory) (palette : Nat → Nat) : Option (Memory × (Nat → Nat)) :=
  (decompress in_image image).map fun s =>
    (s.mem, paletteLoop in_palette GBA_PALETTE_ENTRIES 0 palette)

/-- What the frame loop of `main` carries from one pass to the next: the stream, the
static arrays `data` and `palette` of `main` (as bytes), the two static arrays of
`convert_frame`, and the buffers handed to the muxer so far. -/
structure Pipeline where
  file : File
  data : Input
  palette : Input
  image : Memory
  expanded : Nat → Nat
  log : List Emitted

/-- The body of the frame loop of `main` for frame `i`, given the two address tables:
the two seeks and reads, the call of `convert_frame`, and the frame handed to the
muxer. -/
def frameStep (frames palettes : Input) (i : Nat) (st : Pipeline) : Option Pipeline :=
  let r1 := fread (fseek st.file (fileOffset (load32 frames (4 * i)))) SAFE_LENGTH st.data
  let r2 := fread (fseek r1.2 (fileOffset (load32 palettes (4 * i))))
    (2 * GBA_PALETTE_ENTRIES) st.palette
  (convert_frame r1.1 (halfAt r2.1) st.image st.expanded).bind fun frame =>
    (convert_frame_statics r1.1 (halfAt r2.1) st.image st.expanded).map fun statics =>
      { file := r2.2, data := r1.1, palette := r2.1, image := statics.1,
        expanded := statics.2, log := st.log ++ [Emitted.video frame] }

/-- The loop `for (i = ...; i < IQUE_NUM_FRAMES; i++)` of `main` with `n` passes left, at
index `i`. -/
def frameLoop (frames palettes : Input) : Nat → Nat → Pipeline → Option Pipeline
  | 0, _, st => some st
  | n + 1, i, st =>
    (frameStep frames palettes i st).bind (frameLoop frames palettes n (i + 1))

/-- The static array `frames` after the first table read of `main`. -/
def frameTable (rom : List Byte) : Input :=
  (fread (fseek ⟨rom, 0⟩ IQUE_FRAME_TABLE_LOCATION) (4 * IQUE_NUM_FRAMES) (fun _ => 0)).1

/-- The static array `palettes` after the second table read of `main`, which follows the
first without a seek. -/
def paletteTable (rom : List Byte) : Input :=
  (fread (fread (fseek ⟨rom, 0⟩ IQUE_FRAME_TABLE_LOCATION) (4 * IQUE_NUM_FRAMES)
    (fun _ => 0)).2 (4 * IQUE_NUM_FRAMES) (fun _ => 0)).1

/-- The function `main` once both files are open, on the ROM file `rom`: the list of the
buffers handed to the muxer, in order.  Static arrays start zeroed. -/
def main (rom : List Byte) : Option (List Emitted) :=
  (frameLoop (frameTable rom) (paletteTable rom) IQUE_NUM_FRAMES 0
    { file := (fread (fread (fseek ⟨rom, 0⟩ IQUE_FRAME_TABLE_LOCATION) (4 * IQUE_NUM_FRAMES)
        (fun _ => 0)).2 (4 * IQUE_NUM_FRAMES) (fun _ => 0)).2,
      data := fun _ => 0, palette := fun _ => 0, image := fun _ => 0,
      expanded := fun _ => 0, log := [] }).map fun st =>
    st.log ++ [Emitted.audio (convertAudio IQUE_AUDIO_LENGTH
      ((List.range IQUE_AUDIO_LENGTH).map
        (fread (fseek st.file IQUE_AUDIO_LOCATION) IQUE_AUDIO_LENGTH (fun _ => 0)).1))]

/-- The `n` bytes of the ROM file from offset `off` on, as a buffer that is zero beyond
them. -/
def romBlock (rom : List Byte) (off n : Nat) : Input :=
  fun k => if k < n then rom.getD (off + k) 0 else 0

/-- The value of a byte read as a two's-complement `int8_t`. -/
def toSigned (b : Byte) : Int := if b.val < 128 then (b.val : Int) else (b.val : Int) - 256

/-- The candidate inverse of `CONVERT_555_888` on 15-bit colours. -/
def CONVERT_888_555 (v : Nat) : Nat :=
  (((v >>> 9) &&& 0x7c00) ||| ((v >>> 6) &&& 0x3e0)) ||| ((v >>> 3) &&& 0x1f)

/-- A ROM file used as an example: twelve million bytes `08`, so that every table entry
is the address `0x08080808`. -/
def sampleRom : List Byte := List.replicate 12000000 8

/-! ## Arithmetic of the bit operations -/

theorem and_shiftLeft_mask (n m k : Nat) :
    n &&& (m <<< k) = ((n >>> k) &&& m) <<< k := by
  apply Nat.eq_of_testBit_eq
  intro i
  simp only [Nat.testBit_and, Nat.testBit_shiftLeft, Nat.testBit_shiftRight]
  by_cases h : k ≤ i
  · simp [h, Nat.add_sub_cancel' h]
  · simp [h]

theorem and_low_mask (n k : Nat) : n &&& (2 ^ k - 1) = n % 2 ^ k :=
  Nat.and_pow_two_sub_one_eq_mod n k

theorem and_field_mask (n k w : Nat) :
    n &&& ((2 ^ w - 1) <<< k) = (n / 2 ^ k % 2 ^ w) * 2 ^ k := by
  rw [and_shiftLeft_mask, and_low_mask, Nat.shiftRight_eq_div_pow, Nat.shiftLeft_eq]

theorem tokenDistance_eq (token : Nat) :
    tokenDistance token = (token % 16) * 256 + (token / 256) % 256 + 1 := by
  have h1 : token &&& 0x0f = token % 16 := and_low_mask token 4
  have h2 : token &&& 0xff00 = (token / 256 % 256) * 256 := and_field_mask token 8 8
  have h3 : (token % 16) <<< 8 = 2 ^ 8 * (token % 16) := by
    rw [Nat.shiftLeft_eq, Nat.mul_comm]
  have h4 : ((token / 256 % 256) * 256) >>> 8 = token / 256 % 256 := by
    rw [Nat.shiftRight_eq_div_pow]; omega
  have h5 : token / 256 % 256 < 2 ^ 8 := Nat.mod_lt _ (by decide)
  unfold tokenDistance
  rw [h1, h2, h3, h4, ← Nat.mul_add_lt_is_or h5]
  omega

theorem tokenLength_eq (token : Nat) :
    tokenLength token = (token / 16) % 16 + 3 := by
  have h1 : token &&& 0xf0 = (token / 16 % 16) * 16 := and_field_mask token 4 4
  have h2 : ((token / 16 % 16) * 16) >>> 4 = token / 16 % 16 := by
    rw [Nat.shiftRight_eq_div_pow]; omega
  unfold tokenLength
  rw [h1, h2]
  omega

theorem tokenDistance_pos (token : Nat) : 1 ≤ tokenDistance token := by
  rw [tokenDistance_eq]; omega

theorem tokenDistance_le (token : Nat) : tokenDistance token ≤ 4096 := by
  rw [tokenDistance_eq]; omega

theorem tokenLength_ge (token : Nat) : 3 ≤ tokenLength token := by
  rw [tokenLength_eq]; omega

theorem tokenLength_le (token : Nat) : tokenLength token ≤ 18 := by
  rw [tokenLength_eq]; omega

theorem declaredLength_eq (inp : Input) :
    declaredLength inp
      = (inp 1).val + 256 * (inp 2).val + 65536 * (inp 3).val := by
  unfold declaredLength load32
  rw [Nat.shiftRight_eq_div_pow]
  have h0 := (inp 0).isLt
  simp only [Nat.zero_add]
  omega

/-! ## The copy loop -/

theorem store_same (mem : Memory) (i : Int) (b : Byte) : store mem i b i = b := by
  simp [store]

theorem store_eq (mem : Memory) (i j : Int) (b : Byte) (h : j = i) :
    store mem i b j = b := by
  simp [store, h]

theorem store_other (mem : Memory) (i j : Int) (b : Byte) (h : j ≠ i) :
    store mem i b j = mem j := by
  simp [store, h]

theorem copyLoop_ip (d : Nat) : ∀ (n : Nat) (s : State), (copyLoop d n s).ip = s.ip
  | 0, _ => rfl
  | n + 1, s => by rw [copyLoop, copyLoop_ip d n]

theorem copyLoop_op (d : Nat) : ∀ (n : Nat) (s : State), (copyLoop d n s).op = s.op + n
  | 0, _ => rfl
  | n + 1, s => by rw [copyLoop, copyLoop_op d n]; simp only []; omega

/-- The copy loop leaves every cell below the cursor as it was. -/
theorem copyLoop_mem_below (d : Nat) :
    ∀ (n : Nat) (s : State) (a : Int), a < (s.op : Int) → (copyLoop d n s).mem a = s.mem a
  | 0, _, _, _ => rfl
  | n + 1, s, a, h => by
    rw [copyLoop, copyLoop_mem_below d n _ a (by simp only []; omega)]
    exact store_other _ _ _ _ (by omega)

/-- The copy loop leaves every cell from `out + length` on as it was. -/
theorem copyLoop_mem_above (d : Nat) :
    ∀ (n : Nat) (s : State) (a : Int), (s.op : Int) + n ≤ a → (copyLoop d n s).mem a = s.mem a
  | 0, _, _, _ => rfl
  | n + 1, s, a, h => by
    rw [copyLoop, copyLoop_mem_above d n _ a (by simp only []; push_cast; omega)]
    exact store_other _ _ _ _ (by push_cast at h; omega)

/-- One more pass of the copy loop is one more byte copied at the end. -/
theorem copyLoop_succ (d : Nat) :
    ∀ (n : Nat) (s : State),
      copyLoop d (n + 1) s =
        { copyLoop d n s with
            op := (copyLoop d n s).op + 1,
            mem := store (copyLoop d n s).mem (copyLoop d n s).op
              ((copyLoop d n s).mem (((copyLoop d n s).op : Int) - (d : Int))) }
  | 0, _ => rfl
  | n + 1, s => by
    rw [copyLoop, copyLoop_succ d n]
    rfl

/-- The `k`-th byte copied is the byte `distance` cells before its own place, in
the memory as the loop leaves it. -/
theorem copyLoop_mem_at (d : Nat) :
    ∀ (n : Nat) (s : State) (k : Nat), k < n →
      (copyLoop d n s).mem ((s.op : Int) + k)
        = (copyLoop d k s).mem ((s.op : Int) + k - d)
  | 0, _, _, h => absurd h (Nat.not_lt_zero _)
  | n + 1, s, k, h => by
    rw [copyLoop_succ]
    simp only [copyLoop_op]
    by_cases hk : k = n
    · subst hk
      push_cast
      rw [store_same]
    · rw [store_other _ _ _ _ (by push_cast; omega)]
      exact copyLoop_mem_at d n s k (by omega)

/-- Byte-at-a-time copying repeats the `distance` bytes before the cursor with period
`distance`. -/
theorem copyLoop_periodic (d : Nat) (hd : 1 ≤ d) (s : State) :
    ∀ (n k : Nat), k < n →
      (copyLoop d n s).mem ((s.op : Int) + k) = s.mem ((s.op : Int) - d + (k % d : Nat)) := by
  intro n k
  induction k using Nat.strong_induction_on generalizing n with
  | _ k ih =>
    intro hk
    rw [copyLoop_mem_at d n s k hk]
    by_cases hkd : k < d
    · rw [copyLoop_mem_below d k s _ (by omega), Nat.mod_eq_of_lt hkd]
      congr 1; omega
    · have hk2 : k - d < k := by omega
      have e : (s.op : Int) + k - d = (s.op : Int) + ((k - d : Nat) : Int) := by omega
      rw [e, ih (k - d) hk2 k hk2, Nat.mod_eq_sub_mod (by omega : k ≥ d)]

/-! ## One token, one group of eight tokens -/

theorem tokenStep_literal (inp : Input) (flags mask : Nat) (s : State)
    (h : flags &&& mask = 0) :
    tokenStep inp flags mask s
      = { ip := s.ip + 1, op := s.op + 1, mem := store s.mem s.op (inp s.ip) } := by
  simp [tokenStep, h]

theorem tokenStep_backref (inp : Input) (flags mask : Nat) (s : State)
    (h : flags &&& mask ≠ 0) :
    tokenStep inp flags mask s
      = copyLoop (tokenDistance (load16 inp s.ip)) (tokenLength (load16 inp s.ip))
          { s with ip := s.ip + 2 } := by
  simp [tokenStep, h]

theorem tokenStep_op_ge (inp : Input) (flags mask : Nat) (s : State) :
    s.op + 1 ≤ (tokenStep inp flags mask s).op := by
  by_cases h : flags &&& mask = 0
  · rw [tokenStep_literal inp flags mask s h]
  · rw [tokenStep_backref inp flags mask s h, copyLoop_op]
    have := tokenLength_ge (load16 inp s.ip)
    simp only []; omega

theorem tokenStep_op_le (inp : Input) (flags mask : Nat) (s : State) :
    (tokenStep inp flags mask s).op ≤ s.op + 18 := by
  by_cases h : flags &&& mask = 0
  · rw [tokenStep_literal inp flags mask s h]; simp only []; omega
  · rw [tokenStep_backref inp flags mask s h, copyLoop_op]
    have := tokenLength_le (load16 inp s.ip)
    simp only []; omega

theorem tokenStep_ip_ge (inp : Input) (flags mask : Nat) (s : State) :
    s.ip + 1 ≤ (tokenStep inp flags mask s).ip := by
  by_cases h : flags &&& mask = 0
  · rw [tokenStep_literal inp flags mask s h]
  · rw [tokenStep_backref inp flags mask s h, copyLoop_ip]
    simp only []; omega

/-- A token reads no more bytes than it writes. -/
theorem tokenStep_ip_le (inp : Input) (flags mask : Nat) (s : State) :
    (tokenStep inp flags mask s).ip + s.op ≤ (tokenStep inp flags mask s).op + s.ip := by
  by_cases h : flags &&& mask = 0
  · rw [tokenStep_literal inp flags mask s h]; simp only []; omega
  · rw [tokenStep_backref inp flags mask s h, copyLoop_op, copyLoop_ip]
    have := tokenLength_ge (load16 inp s.ip)
    simp only []; omega

/-- A token leaves every cell below the cursor as it was. -/
theorem tokenStep_mem_below (inp : Input) (flags mask : Nat) (s : State) (a : Int)
    (ha : a < (s.op : Int)) : (tokenStep inp flags mask s).mem a = s.mem a := by
  by_cases h : flags &&& mask = 0
  · rw [tokenStep_literal inp flags mask s h]
    exact store_other _ _ _ _ (by omega)
  · rw [tokenStep_backref inp flags mask s h]
    exact copyLoop_mem_below _ _ _ a ha

/-- A token leaves every cell from the new cursor on as it was. -/
theorem tokenStep_mem_above (inp : Input) (flags mask : Nat) (s : State) (a : Int)
    (ha : ((tokenStep inp flags mask s).op : Int) ≤ a) :
    (tokenStep inp flags mask s).mem a = s.mem a := by
  by_cases h : flags &&& mask = 0
  · rw [tokenStep_literal inp flags mask s h] at ha ⊢
    exact store_other _ _ _ _ (by simp only [] at ha; push_cast at ha; omega)
  · rw [tokenStep_backref inp flags mask s h] at ha ⊢
    rw [copyLoop_op] at ha
    exact copyLoop_mem_above _ _ _ a (by simp only [] at ha ⊢; push_cast at ha; omega)

/-- From `mask = 0x80` the `for` loop runs its body eight times. -/
theorem forLoop_eight (inp : Input) (flags : Nat) (s : State) :
    forLoop inp flags 8 0x80 s
      = tokenStep inp flags 0x01 (tokenStep inp flags 0x02 (tokenStep inp flags 0x04
          (tokenStep inp flags 0x08 (tokenStep inp flags 0x10 (tokenStep inp flags 0x20
            (tokenStep inp flags 0x40 (tokenStep inp flags 0x80 s))))))) := by
  simp [forLoop]

/-- More passes allowed change nothing: the loop leaves when `mask` is zero. -/
theorem forLoop_fuel (inp : Input) (flags : Nat) (s : State) (k : Nat) :
    forLoop inp flags (8 + k) 0x80 s = forLoop inp flags 8 0x80 s := by
  have e : 8 + k = k + 1 + 1 + 1 + 1 + 1 + 1 + 1 + 1 := by omega
  rw [forLoop_eight, e]
  cases k <;> simp [forLoop]

theorem group_eq (inp : Input) (s : State) :
    group inp s
      = tokenStep inp (inp s.ip).val 0x01 (tokenStep inp (inp s.ip).val 0x02
          (tokenStep inp (inp s.ip).val 0x04 (tokenStep inp (inp s.ip).val 0x08
            (tokenStep inp (inp s.ip).val 0x10 (tokenStep inp (inp s.ip).val 0x20
              (tokenStep inp (inp s.ip).val 0x40 (tokenStep inp (inp s.ip).val 0x80
                { s with ip := s.ip + 1 }))))))) := by
  rw [group, forLoop_eight]

/-- A group moves `out` forward by at least 8 bytes. -/
theorem group_op_ge (inp : Input) (s : State) : s.op + 8 ≤ (group inp s).op := by
  rw [group_eq]
  generalize (inp s.ip).val = f
  have h1 := tokenStep_op_ge inp f 0x80 { s with ip := s.ip + 1 }
  generalize tokenStep inp f 0x80 { s with ip := s.ip + 1 } = s1 at h1 ⊢
  have h2 := tokenStep_op_ge inp f 0x40 s1
  generalize tokenStep inp f 0x40 s1 = s2 at h2 ⊢
  have h3 := tokenStep_op_ge inp f 0x20 s2
  generalize tokenStep inp f 0x20 s2 = s3 at h3 ⊢
  have h4 := tokenStep_op_ge inp f 0x10 s3
  generalize tokenStep inp f 0x10 s3 = s4 at h4 ⊢
  have h5 := tokenStep_op_ge inp f 0x08 s4
  generalize tokenStep inp f 0x08 s4 = s5 at h5 ⊢
  have h6 := tokenStep_op_ge inp f 0x04 s5
  generalize tokenStep inp f 0x04 s5 = s6 at h6 ⊢
  have h7 := tokenStep_op_ge inp f 0x02 s6
  generalize tokenStep inp f 0x02 s6 = s7 at h7 ⊢
  have h8 := tokenStep_op_ge inp f 0x01 s7
  simp only [] at h1
  omega

/-- A group moves `out` forward by at most 144 bytes. -/
theorem group_op_le (inp : Input) (s : State) : (group inp s).op ≤ s.op + 144 := by
  rw [group_eq]
  generalize (inp s.ip).val = f
  have h1 := tokenStep_op_le inp f 0x80 { s with ip := s.ip + 1 }
  generalize tokenStep inp f 0x80 { s with ip := s.ip + 1 } = s1 at h1 ⊢
  have h2 := tokenStep_op_le inp f 0x40 s1
  generalize tokenStep inp f 0x40 s1 = s2 at h2 ⊢
  have h3 := tokenStep_op_le inp f 0x20 s2
  generalize tokenStep inp f 0x20 s2 = s3 at h3 ⊢
  have h4 := tokenStep_op_le inp f 0x10 s3
  generalize tokenStep inp f 0x10 s3 = s4 at h4 ⊢
  have h5 := tokenStep_op_le inp f 0x08 s4
  generalize tokenStep inp f 0x08 s4 = s5 at h5 ⊢
  have h6 := tokenStep_op_le inp f 0x04 s5
  generalize tokenStep inp f 0x04 s5 = s6 at h6 ⊢
  have h7 := tokenStep_op_le inp f 0x02 s6
  generalize tokenStep inp f 0x02 s6 = s7 at h7 ⊢
  have h8 := tokenStep_op_le inp f 0x01 s7
  simp only [] at h1
  omega

/-- A group reads one control byte and no more token bytes than it writes. -/
theorem group_ip_le (inp : Input) (s : State) :
    (group inp s).ip + s.op ≤ (group inp s).op + s.ip + 1 := by
  rw [group_eq]
  generalize (inp s.ip).val = f
  have h1 := tokenStep_ip_le inp f 0x80 { s with ip := s.ip + 1 }
  generalize tokenStep inp f 0x80 { s with ip := s.ip + 1 } = s1 at h1 ⊢
  have h2 := tokenStep_ip_le inp f 0x40 s1
  generalize tokenStep inp f 0x40 s1 = s2 at h2 ⊢
  have h3 := tokenStep_ip_le inp f 0x20 s2
  generalize tokenStep inp f 0x20 s2 = s3 at h3 ⊢
  have h4 := tokenStep_ip_le inp f 0x10 s3
  generalize tokenStep inp f 0x10 s3 = s4 at h4 ⊢
  have h5 := tokenStep_ip_le inp f 0x08 s4
  generalize tokenStep inp f 0x08 s4 = s5 at h5 ⊢
  have h6 := tokenStep_ip_le inp f 0x04 s5
  generalize tokenStep inp f 0x04 s5 = s6 at h6 ⊢
  have h7 := tokenStep_ip_le inp f 0x02 s6
  generalize tokenStep inp f 0x02 s6 = s7 at h7 ⊢
  have h8 := tokenStep_ip_le inp f 0x01 s7
  simp only [] at h1
  omega

/-- A group leaves every cell below the cursor it starts from as it was. -/
theorem group_mem_below (inp : Input) (s : State) (a : Int) (ha : a < (s.op : Int)) :
    (group inp s).mem a = s.mem a := by
  rw [group_eq]
  generalize (inp s.ip).val = f
  have g1 := tokenStep_op_ge inp f 0x80 { s with ip := s.ip + 1 }
  have m1 := tokenStep_mem_below inp f 0x80 { s with ip := s.ip + 1 } a ha
  generalize tokenStep inp f 0x80 { s with ip := s.ip + 1 } = s1 at g1 m1 ⊢
  simp only [] at g1 m1
  have g2 := tokenStep_op_ge inp f 0x40 s1
  have m2 := tokenStep_mem_below inp f 0x40 s1 a (by omega)
  generalize tokenStep inp f 0x40 s1 = s2 at g2 m2 ⊢
  have g3 := tokenStep_op_ge inp f 0x20 s2
  have m3 := tokenStep_mem_below inp f 0x20 s2 a (by omega)
  generalize tokenStep inp f 0x20 s2 = s3 at g3 m3 ⊢
  have g4 := tokenStep_op_ge inp f 0x10 s3
  have m4 := tokenStep_mem_below inp f 0x10 s3 a (by omega)
  generalize tokenStep inp f 0x10 s3 = s4 at g4 m4 ⊢
  have g5 := tokenStep_op_ge inp f 0x08 s4
  have m5 := tokenStep_mem_below inp f 0x08 s4 a (by omega)
  generalize tokenStep inp f 0x08 s4 = s5 at g5 m5 ⊢
  have g6 := tokenStep_op_ge inp f 0x04 s5
  have m6 := tokenStep_mem_below inp f 0x04 s5 a (by omega)
  generalize tokenStep inp f 0x04 s5 = s6 at g6 m6 ⊢
  have g7 := tokenStep_op_ge inp f 0x02 s6
  have m7 := tokenStep_mem_below inp f 0x02 s6 a (by omega)
  generalize tokenStep inp f 0x02 s6 = s7 at g7 m7 ⊢
  have m8 := tokenStep_mem_below inp f 0x01 s7 a (by omega)
  rw [m8, m7, m6, m5, m4, m3, m2, m1]

/-- A group leaves every cell from its final cursor on as it was. -/
theorem group_mem_above (inp : Input) (s : State) (a : Int)
    (ha : ((group inp s).op : Int) ≤ a) : (group inp s).mem a = s.mem a := by
  rw [group_eq] at ha ⊢
  generalize (inp s.ip).val = f at ha ⊢
  generalize hs1 : tokenStep inp f 0x80 { s with ip := s.ip + 1 } = s1 at ha ⊢
  generalize hs2 : tokenStep inp f 0x40 s1 = s2 at ha ⊢
  generalize hs3 : tokenStep inp f 0x20 s2 = s3 at ha ⊢
  generalize hs4 : tokenStep inp f 0x10 s3 = s4 at ha ⊢
  generalize hs5 : tokenStep inp f 0x08 s4 = s5 at ha ⊢
  generalize hs6 : tokenStep inp f 0x04 s5 = s6 at ha ⊢
  generalize hs7 : tokenStep inp f 0x02 s6 = s7 at ha ⊢
  have g8 := tokenStep_op_ge inp f 0x01 s7
  have g7 := tokenStep_op_ge inp f 0x02 s6
  have g6 := tokenStep_op_ge inp f 0x04 s5
  have g5 := tokenStep_op_ge inp f 0x08 s4
  have g4 := tokenStep_op_ge inp f 0x10 s3
  have g3 := tokenStep_op_ge inp f 0x20 s2
  have g2 := tokenStep_op_ge inp f 0x40 s1
  rw [hs7] at g7; rw [hs6] at g6; rw [hs5] at g5; rw [hs4] at g4
  rw [hs3] at g3; rw [hs2] at g2
  rw [tokenStep_mem_above inp f 0x01 s7 a ha]
  rw [← hs7, tokenStep_mem_above inp f 0x02 s6 a (by rw [hs7]; omega)]
  rw [← hs6, tokenStep_mem_above inp f 0x04 s5 a (by rw [hs6]; omega)]
  rw [← hs5, tokenStep_mem_above inp f 0x08 s4 a (by rw [hs5]; omega)]
  rw [← hs4, tokenStep_mem_above inp f 0x10 s3 a (by rw [hs4]; omega)]
  rw [← hs3, tokenStep_mem_above inp f 0x20 s2 a (by rw [hs3]; omega)]
  rw [← hs2, tokenStep_mem_above inp f 0x40 s1 a (by rw [hs2]; omega)]
  rw [← hs1, tokenStep_mem_above inp f 0x80 _ a (by rw [hs1]; omega)]

/-! ## The outer loop -/

theorem whileLoop_done (inp : Input) (stop fuel : Nat) (s : State) (h : stop ≤ s.op) :
    whileLoop inp stop fuel s = some s := by
  cases fuel <;> simp [whileLoop, Nat.not_lt.mpr h]

theorem whileLoop_step (inp : Input) (stop fuel : Nat) (s : State) (h : s.op < stop) :
    whileLoop inp stop (fuel + 1) s = whileLoop inp stop fuel (group inp s) := by
  simp [whileLoop, h]

/-- A result reached within some bound on the passes is the result for every larger
bound. -/
theorem whileLoop_fuel_mono (inp : Input) (stop : Nat) :
    ∀ (fuel k : Nat) (s s' : State),
      whileLoop inp stop fuel s = some s' → whileLoop inp stop (fuel + k) s = some s'
  | 0, k, s, s', h => by
    by_cases hs : s.op < stop
    · simp [whileLoop, hs] at h
    · simp only [whileLoop, hs, if_false] at h
      rw [whileLoop_done inp stop _ s (by omega)]; exact h
  | fuel + 1, k, s, s', h => by
    by_cases hs : s.op < stop
    · rw [whileLoop_step inp stop fuel s hs] at h
      have e : fuel + 1 + k = (fuel + k) + 1 := by omega
      rw [e, whileLoop_step inp stop _ s hs]
      exact whileLoop_fuel_mono inp stop fuel k _ s' h
    · rw [whileLoop_done inp stop _ s (by omega)] at h
      rw [whileLoop_done inp stop _ s (by omega)]; exact h

/-- What the outer loop does when the bound on its passes is large enough: it returns,
with `out` at or beyond `end` and less than one group beyond it; it changes no cell
below the cursor it starts from and none from its final cursor on. -/
theorem whileLoop_spec (inp : Input) (stop : Nat) :
    ∀ (fuel : Nat) (s : State), stop ≤ s.op + 8 * fuel →
      ∃ s', whileLoop inp stop fuel s = some s' ∧ stop ≤ s'.op ∧ s.op ≤ s'.op
        ∧ (s.op < stop → s'.op ≤ stop + 143)
        ∧ (stop ≤ s.op → s' = s)
        ∧ (∀ a : Int, a < (s.op : Int) → s'.mem a = s.mem a)
        ∧ (∀ a : Int, (s'.op : Int) ≤ a → s'.mem a = s.mem a)
        ∧ s.ip ≤ s'.ip
        ∧ (s.op < stop → 8 * s'.ip + 9 * s.op ≤ 8 * s.ip + 8 * s'.op + stop + 7)
  | 0, s, h => by
    refine ⟨s, whileLoop_done inp stop 0 s (by omega), by omega, Nat.le_refl _,
      fun h' => by omega, fun _ => rfl, fun _ _ => rfl, fun _ _ => rfl, Nat.le_refl _,
      fun h' => by omega⟩
  | fuel + 1, s, h => by
    by_cases hs : s.op < stop
    · have hge := group_op_ge inp s
      have hle := group_op_le inp s
      have hip := group_ip_le inp s
      obtain ⟨s', hrun, h1, h2, h3, h4, h5, h6, h7, h8⟩ :=
        whileLoop_spec inp stop fuel (group inp s) (by omega)
      refine ⟨s', by rw [whileLoop_step inp stop fuel s hs]; exact hrun, h1, by omega,
        fun _ => ?_, fun h' => by omega, fun a ha => ?_, fun a ha => ?_, ?_, fun _ => ?_⟩
      · by_cases hg : (group inp s).op < stop
        · exact h3 hg
        · rw [h4 (by omega)]; omega
      · rw [h5 a (by omega), group_mem_below inp s a ha]
      · rw [h6 a ha, group_mem_above inp s a (by omega)]
      · have : s.ip + 1 ≤ (group inp s).ip := by
          rw [group_eq]
          have t1 := tokenStep_ip_ge inp (inp s.ip).val 0x80 { s with ip := s.ip + 1 }
          generalize tokenStep inp (inp s.ip).val 0x80 { s with ip := s.ip + 1 } = s1 at t1 ⊢
          have t2 := tokenStep_ip_ge inp (inp s.ip).val 0x40 s1
          generalize tokenStep inp (inp s.ip).val 0x40 s1 = s2 at t2 ⊢
          have t3 := tokenStep_ip_ge inp (inp s.ip).val 0x20 s2
          generalize tokenStep inp (inp s.ip).val 0x20 s2 = s3 at t3 ⊢
          have t4 := tokenStep_ip_ge inp (inp s.ip).val 0x10 s3
          generalize tokenStep inp (inp s.ip).val 0x10 s3 = s4 at t4 ⊢
          have t5 := tokenStep_ip_ge inp (inp s.ip).val 0x08 s4
          generalize tokenStep inp (inp s.ip).val 0x08 s4 = s5 at t5 ⊢
          have t6 := tokenStep_ip_ge inp (inp s.ip).val 0x04 s5
          generalize tokenStep inp (inp s.ip).val 0x04 s5 = s6 at t6 ⊢
          have t7 := tokenStep_ip_ge inp (inp s.ip).val 0x02 s6
          generalize tokenStep inp (inp s.ip).val 0x02 s6 = s7 at t7 ⊢
          have t8 := tokenStep_ip_ge inp (inp s.ip).val 0x01 s7
          simp only [] at t1
          omega
        omega
      · by_cases hg : (group inp s).op < stop
        · have := h8 hg; omega
        · rw [h4 (by omega)]; omega
    · refine ⟨s, whileLoop_done inp stop _ s (by omega), by omega, Nat.le_refl _,
        fun h' => by omega, fun _ => rfl, fun _ _ => rfl, fun _ _ => rfl, Nat.le_refl _,
        fun h' => by omega⟩

/-- The function `decompress` returns on every input, having written at least the
declared number of bytes and fewer than one group more. -/
theorem decompress_spec (inp : Input) (mem : Memory) :
    ∃ s, decompress inp mem = some s ∧ declaredLength inp ≤ s.op
      ∧ (0 < declaredLength inp → s.op ≤ declaredLength inp + 143)
      ∧ (declaredLength inp = 0 → s = ⟨4, 0, mem⟩)
      ∧ (∀ a : Int, a < 0 → s.mem a = mem a)
      ∧ (∀ a : Int, (s.op : Int) ≤ a → s.mem a = mem a)
      ∧ 4 ≤ s.ip
      ∧ (0 < declaredLength inp → 8 * s.ip ≤ 8 * s.op + declaredLength inp + 39) := by
  obtain ⟨s, hrun, h1, _, h3, h4, h5, h6, h7, h8⟩ :=
    whileLoop_spec inp (declaredLength inp) (declaredLength inp) ⟨4, 0, mem⟩
      (by simp only []; omega)
  refine ⟨s, hrun, h1, fun h => h3 h, fun h => h4 (by simp only []; omega),
    fun a ha => h5 a (by simpa using ha), h6, h7, fun h => ?_⟩
  have := h8 h
  simp only [] at this
  omega

/-! ## Blocks of literal tokens -/

/-- A group whose control byte is zero copies the eight bytes that follow it. -/
theorem group_literal (inp : Input) (s : State) (h : inp s.ip = 0) :
    (group inp s).ip = s.ip + 9 ∧ (group inp s).op = s.op + 8
      ∧ ∀ j : Nat, j < 8 → (group inp s).mem ((s.op + j : Nat) : Int) = inp (s.ip + 1 + j) := by
  rw [group_eq, h]
  have z : ∀ m : Nat, (0 : Fin 256).val &&& m = 0 := fun m => by simp
  simp only [tokenStep_literal _ _ _ _ (z _)]
  refine ⟨trivial, trivial, ?_⟩
  intro j hj
  have hcases : j = 0 ∨ j = 1 ∨ j = 2 ∨ j = 3 ∨ j = 4 ∨ j = 5 ∨ j = 6 ∨ j = 7 := by omega
  rcases hcases with h | h | h | h | h | h | h | h <;> subst h <;>
    simp [store, Nat.add_assoc]

/-- The outer loop on a block whose remaining control bytes are all zero, entered at a
group boundary: it runs whole groups of eight literals until `out` reaches `end`. -/
theorem whileLoop_literal (inp : Input) (stop : Nat) :
    ∀ (fuel g : Nat) (s : State), s.ip = 4 + 9 * g → s.op = 8 * g →
      (∀ k, g ≤ k → 8 * k < stop → inp (4 + 9 * k) = 0) → stop ≤ 8 * (g + fuel) →
      ∃ s', whileLoop inp stop fuel s = some s'
        ∧ s'.op = 8 * max g ((stop + 7) / 8)
        ∧ s'.ip = 4 + 9 * max g ((stop + 7) / 8)
        ∧ (∀ i : Nat, 8 * g ≤ i → i < s'.op → s'.mem (i : Int) = inp (5 + i + i / 8))
        ∧ (∀ a : Int, a < ((8 * g : Nat) : Int) → s'.mem a = s.mem a)
        ∧ (∀ a : Int, (s'.op : Int) ≤ a → s'.mem a = s.mem a)
  | 0, g, s, hip, hop, _, hfuel => by
    have e : max g ((stop + 7) / 8) = g := by omega
    refine ⟨s, whileLoop_done inp stop 0 s (by omega), by rw [e, hop], by rw [e, hip],
      fun i h1 h2 => by omega, fun _ _ => rfl, fun _ _ => rfl⟩
  | fuel + 1, g, s, hip, hop, hz, hfuel => by
    by_cases hs : s.op < stop
    · have hctl : inp s.ip = 0 := by rw [hip]; exact hz g (Nat.le_refl _) (by omega)
      obtain ⟨gip, gop, gmem⟩ := group_literal inp s hctl
      obtain ⟨s', hrun, h1, h2, h3, h4, h5⟩ :=
        whileLoop_literal inp stop fuel (g + 1) (group inp s) (by omega) (by omega)
          (fun k hk hk' => hz k (by omega) hk') (by omega)
      have e : max (g + 1) ((stop + 7) / 8) = max g ((stop + 7) / 8) := by omega
      rw [e] at h1 h2
      refine ⟨s', by rw [whileLoop_step inp stop fuel s hs]; exact hrun, h1, h2,
        fun i hi hi' => ?_, fun a ha => ?_, fun a ha => ?_⟩
      · by_cases hi8 : 8 * (g + 1) ≤ i
        · exact h3 i hi8 hi'
        · rw [h4 (i : Int) (by omega)]
          have ei : i = s.op + (i - 8 * g) := by omega
          have := gmem (i - 8 * g) (by omega)
          rw [← ei] at this
          rw [this, hip]
          congr 1
          omega
      · rw [h4 a (by omega), group_mem_below inp s a (by omega)]
      · rw [h5 a ha, group_mem_above inp s a (by omega)]
    · have e : max g ((stop + 7) / 8) = g := by omega
      refine ⟨s, whileLoop_done inp stop _ s (by omega), by rw [e, hop], by rw [e, hip],
        fun i h1 h2 => by omega, fun _ _ => rfl, fun _ _ => rfl⟩

/-- The function `decompress` on a block made of literal tokens only: it writes whole
groups of eight literals, the `i`-th byte written being the `i`-th literal of the
block. -/
theorem decompress_literal (inp : Input) (mem : Memory)
    (hz : ∀ k, 8 * k < declaredLength inp → inp (4 + 9 * k) = 0) :
    ∃ s, decompress inp mem = some s
      ∧ s.op = 8 * ((declaredLength inp + 7) / 8)
      ∧ s.ip = 4 + 9 * ((declaredLength inp + 7) / 8)
      ∧ (∀ i : Nat, i < s.op → s.mem (i : Int) = inp (5 + i + i / 8))
      ∧ (∀ a : Int, a < 0 → s.mem a = mem a)
      ∧ (∀ a : Int, (s.op : Int) ≤ a → s.mem a = mem a) := by
  obtain ⟨s, hrun, h1, h2, h3, h4, h5⟩ :=
    whileLoop_literal inp (declaredLength inp) (declaredLength inp) 0 ⟨4, 0, mem⟩ rfl rfl
      (fun k _ hk => hz k hk) (by omega)
  have e : max 0 ((declaredLength inp + 7) / 8) = (declaredLength inp + 7) / 8 := by omega
  rw [e] at h1 h2
  exact ⟨s, hrun, h1, h2, fun i hi => h3 i (by omega) hi, fun a ha => h4 a (by simpa using ha), h5⟩

/-! ## Palette expansion -/

/-- The macro as arithmetic on the three 5-bit channels of its argument. -/
theorem CONVERT_555_888_eq (n : Nat) :
    CONVERT_555_888 n
      = (n / 1024 % 32) * 524288 + (n / 32 % 32) * 2048 + (n % 32) * 8 := by
  have h1 : n &&& 0x7c00 = (n / 1024 % 32) * 1024 := and_field_mask n 10 5
  have h2 : n &&& 0x3e0 = (n / 32 % 32) * 32 := and_field_mask n 5 5
  have h3 : n &&& 0x1f = n % 32 := and_low_mask n 5
  have e1 : ((n / 1024 % 32) * 1024) <<< 9 = 2 ^ 19 * (n / 1024 % 32) := by
    rw [Nat.shiftLeft_eq]; omega
  have e2 : ((n / 32 % 32) * 32) <<< 6 = 2 ^ 11 * (n / 32 % 32) := by
    rw [Nat.shiftLeft_eq]; omega
  have e3 : (n % 32) <<< 3 = (n % 32) * 8 := by
    rw [Nat.shiftLeft_eq]
  have b3 : (n % 32) * 8 < 2 ^ 11 := by omega
  have b2 : 2 ^ 11 * (n / 32 % 32) + (n % 32) * 8 < 2 ^ 19 := by omega
  unfold CONVERT_555_888
  rw [h1, h2, h3, e1, e2, e3, Nat.or_assoc, ← Nat.mul_add_lt_is_or b3,
    ← Nat.mul_add_lt_is_or b2]
  omega

theorem CONVERT_555_888_lt (n : Nat) : CONVERT_555_888 n < 16777216 := by
  rw [CONVERT_555_888_eq]; omega

theorem CONVERT_555_888_zero : CONVERT_555_888 0 = 0 := by
  rw [CONVERT_555_888_eq]

/-- The palette loop sets the entries it passes over and leaves the others. -/
theorem paletteLoop_apply (in_palette : Nat → Half) :
    ∀ (n i : Nat) (palette : Nat → Nat) (j : Nat),
      paletteLoop in_palette n i palette j
        = if i ≤ j ∧ j < i + n then CONVERT_555_888 (in_palette j).val else palette j
  | 0, i, palette, j => by
    have : ¬ (i ≤ j ∧ j < i + 0) := by omega
    rw [paletteLoop, if_neg this]
  | n + 1, i, palette, j => by
    rw [paletteLoop, paletteLoop_apply in_palette n (i + 1)]
    by_cases h1 : i + 1 ≤ j ∧ j < i + 1 + n
    · have h2 : i ≤ j ∧ j < i + (n + 1) := by omega
      rw [if_pos h1, if_pos h2]
    · rw [if_neg h1]
      by_cases h3 : j = i
      · subst h3
        have h2 : j ≤ j ∧ j < j + (n + 1) := by omega
        have := CONVERT_555_888_lt (in_palette j).val
        rw [if_pos h2, storeWord, if_pos rfl]
        omega
      · have h2 : ¬ (i ≤ j ∧ j < i + (n + 1)) := by omega
        rw [if_neg h2, storeWord, if_neg h3]

/-- After the palette loop of `convert_frame` every entry a byte can index is the
expansion of the raw entry, whatever the array held before. -/
theorem paletteLoop_byte (in_palette : Nat → Half) (palette : Nat → Nat) (b : Byte) :
    paletteLoop in_palette GBA_PALETTE_ENTRIES 0 palette b.val
      = CONVERT_555_888 (in_palette b.val).val := by
  have hb := b.isLt
  rw [paletteLoop_apply, if_pos (by unfold GBA_PALETTE_ENTRIES; omega)]

/-! ## Frame reconstruction -/

theorem pixelBytes_length (px : Nat) : (pixelBytes px).length = 3 := rfl

theorem xLoop_length (image : Memory) (palette : Nat → Nat) (y : Nat) :
    ∀ (n x : Nat) (out : List Byte),
      (xLoop image palette y n x out).length = out.length + 3 * n
  | 0, _, _ => rfl
  | n + 1, x, out => by
    rw [xLoop, xLoop_length image palette y n, List.length_append, pixelBytes_length]
    omega

/-- The row loop keeps what was written before it. -/
theorem xLoop_get_old (image : Memory) (palette : Nat → Nat) (y : Nat) :
    ∀ (n x : Nat) (out : List Byte) (i : Nat), i < out.length →
      (xLoop image palette y n x out)[i]? = out[i]?
  | 0, _, _, _, _ => rfl
  | n + 1, x, out, i, h => by
    rw [xLoop, xLoop_get_old image palette y n _ _ i
      (by rw [List.length_append]; omega), List.getElem?_append_left h]

/-- The `j`-th pixel written by the row loop is the pixel of column `x + j`. -/
theorem xLoop_get_new (image : Memory) (palette : Nat → Nat) (y : Nat) :
    ∀ (n x : Nat) (out : List Byte) (j c : Nat), j < n → c < 3 →
      (xLoop image palette y n x out)[out.length + 3 * j + c]?
        = (pixelBytes (palette (image ((y * GBA_WIDTH + (x + j) : Nat) : Int)).val))[c]?
  | 0, _, _, _, _, h, _ => absurd h (Nat.not_lt_zero _)
  | n + 1, x, out, j, c, h, hc => by
    rw [xLoop]
    cases j with
    | zero =>
      rw [xLoop_get_old image palette y n _ _ _
        (by rw [List.length_append, pixelBytes_length]; omega),
        List.getElem?_append_right (by omega)]
      congr 1
      omega
    | succ j =>
      have := xLoop_get_new image palette y n (x + 1)
        (out ++ pixelBytes (palette (image ((y * GBA_WIDTH + x : Nat) : Int)).val)) j c
        (by omega) hc
      rw [List.length_append, pixelBytes_length] at this
      have e : out.length + 3 * (j + 1) + c = out.length + 3 + 3 * j + c := by omega
      have e' : x + (j + 1) = x + 1 + j := by omega
      rw [e, e', this]

theorem yLoop_length (image : Memory) (palette : Nat → Nat) :
    ∀ (n : Nat) (out : List Byte),
      (yLoop image palette n out).length = out.length + 3 * (GBA_WIDTH * n)
  | 0, _ => rfl
  | n + 1, out => by
    rw [yLoop, yLoop_length image palette n, xLoop_length, Nat.mul_succ]
    omega

theorem yLoop_get_old (image : Memory) (palette : Nat → Nat) :
    ∀ (n : Nat) (out : List Byte) (i : Nat), i < out.length →
      (yLoop image palette n out)[i]? = out[i]?
  | 0, _, _, _ => rfl
  | n + 1, out, i, h => by
    rw [yLoop, yLoop_get_old image palette n _ i (by rw [xLoop_length]; omega),
      xLoop_get_old image palette n _ _ _ i h]

/-- The pixel written at row `r`, column `x` of the output comes from row `n - 1 - r`
of the image: the rows come out in reverse order. -/
theorem yLoop_get_new (image : Memory) (palette : Nat → Nat) :
    ∀ (n : Nat) (out : List Byte) (r x c : Nat), r < n → x < GBA_WIDTH → c < 3 →
      (yLoop image palette n out)[out.length + 3 * (GBA_WIDTH * r + x) + c]?
        = (pixelBytes
            (palette (image (((n - 1 - r) * GBA_WIDTH + x : Nat) : Int)).val))[c]?
  | 0, _, _, _, _, h, _, _ => absurd h (Nat.not_lt_zero _)
  | n + 1, out, r, x, c, h, hx, hc => by
    rw [yLoop]
    cases r with
    | zero =>
      rw [yLoop_get_old image palette n _ _ (by rw [xLoop_length]; omega)]
      have := xLoop_get_new image palette n GBA_WIDTH 0 out x c hx hc
      rw [Nat.mul_zero, Nat.zero_add, this]
      simp
    | succ r =>
      have := yLoop_get_new image palette n (xLoop image palette n GBA_WIDTH 0 out) r x c
        (by omega) hx hc
      rw [xLoop_length] at this
      have e : out.length + 3 * (GBA_WIDTH * (r + 1) + x) + c
          = out.length + 3 * GBA_WIDTH + 3 * (GBA_WIDTH * r + x) + c := by
        rw [Nat.mul_succ]; omega
      have e' : n + 1 - 1 - (r + 1) = n - 1 - r := by omega
      rw [e, e', this]

/-- The frame loops of `convert_frame`: the byte `c` of the pixel at column `x` of
image row `y` is written at offset `3 * ((GBA_HEIGHT - 1 - y) * GBA_WIDTH + x) + c`. -/
theorem frame_get (image : Memory) (palette : Nat → Nat) (x y c : Nat)
    (hx : x < GBA_WIDTH) (hy : y < GBA_HEIGHT) (hc : c < 3) :
    (yLoop image palette GBA_HEIGHT [])[3 * ((GBA_HEIGHT - 1 - y) * GBA_WIDTH + x) + c]?
      = (pixelBytes (palette (image ((y * GBA_WIDTH + x : Nat) : Int)).val))[c]? := by
  have := yLoop_get_new image palette GBA_HEIGHT [] (GBA_HEIGHT - 1 - y) x c
    (by unfold GBA_HEIGHT at hy ⊢; omega) hx hc
  have e : GBA_HEIGHT - 1 - (GBA_HEIGHT - 1 - y) = y := by
    unfold GBA_HEIGHT at hy ⊢; omega
  rw [e, List.length_nil, Nat.zero_add, Nat.mul_comm GBA_WIDTH] at this
  exact this

theorem frame_length (image : Memory) (palette : Nat → Nat) :
    (yLoop image palette GBA_HEIGHT []).length = 115200 := by
  rw [yLoop_length]; rfl

/-- The frame loops read the image and the palette only at the pixels of the image, so
two images and palettes that agree there give the same frame. -/
theorem xLoop_congr (image1 image2 : Memory) (palette1 palette2 : Nat → Nat) (y : Nat) :
    ∀ (n x : Nat) (out : List Byte),
      (∀ j, j < n → palette1 (image1 ((y * GBA_WIDTH + (x + j) : Nat) : Int)).val
        = palette2 (image2 ((y * GBA_WIDTH + (x + j) : Nat) : Int)).val) →
      xLoop image1 palette1 y n x out = xLoop image2 palette2 y n x out
  | 0, _, _, _ => rfl
  | n + 1, x, out, h => by
    have h0 := h 0 (by omega)
    rw [Nat.add_zero] at h0
    rw [xLoop, xLoop, h0]
    exact xLoop_congr image1 image2 palette1 palette2 y n (x + 1) _
      (fun j hj => by have := h (j + 1) (by omega); rwa [show x + (j + 1) = x + 1 + j by omega] at this)

theorem yLoop_congr (image1 image2 : Memory) (palette1 palette2 : Nat → Nat) :
    ∀ (n : Nat) (out : List Byte),
      (∀ i, i < n * GBA_WIDTH → palette1 (image1 ((i : Nat) : Int)).val
        = palette2 (image2 ((i : Nat) : Int)).val) →
      yLoop image1 palette1 n out = yLoop image2 palette2 n out
  | 0, _, _ => rfl
  | n + 1, out, h => by
    rw [yLoop, yLoop]
    rw [xLoop_congr image1 image2 palette1 palette2 n GBA_WIDTH 0 out
      (fun j hj => h _ (by rw [Nat.succ_mul]; omega))]
    exact yLoop_congr image1 image2 palette1 palette2 n _
      (fun i hi => h i (by rw [Nat.succ_mul]; omega))

/-! ## Audio conversion -/

set_option maxRecDepth 100000 in
theorem flipSign_flipSign : ∀ b : Byte, flipSign (flipSign b) = b := by decide

set_option maxRecDepth 100000 in
theorem flipSign_val : ∀ b : Byte, (flipSign b).val = b.val ^^^ 0x80 := by decide

theorem audioLoop_length : ∀ (k i : Nat) (audio : List Byte),
    (audioLoop k i audio).length = audio.length
  | 0, _, _ => rfl
  | k + 1, i, audio => by rw [audioLoop, audioLoop_length k, List.length_set]

/-- The audio loop flips the samples it passes over and leaves the others. -/
theorem audioLoop_get : ∀ (k i : Nat) (audio : List Byte) (j : Nat),
    (audioLoop k i audio)[j]?
      = if i ≤ j ∧ j < i + k then audio[j]?.map flipSign else audio[j]?
  | 0, i, audio, j => by
    have : ¬ (i ≤ j ∧ j < i + 0) := by omega
    rw [audioLoop, if_neg this]
  | k + 1, i, audio, j => by
    rw [audioLoop, audioLoop_get k (i + 1)]
    by_cases hj : i = j
    · subst hj
      have h1 : ¬ (i + 1 ≤ i ∧ i < i + 1 + k) := by omega
      have h2 : i ≤ i ∧ i < i + (k + 1) := by omega
      rw [if_neg h1, if_pos h2, List.getElem?_set, if_pos rfl]
      by_cases hi : i < audio.length
      · rw [if_pos hi, List.getElem?_eq_getElem hi, List.getD_eq_getElem?_getD,
          List.getElem?_eq_getElem hi]
        rfl
      · rw [if_neg hi, List.getElem?_eq_none (by omega)]
        rfl
    · rw [List.getElem?_set_ne hj]
      by_cases h1 : i + 1 ≤ j ∧ j < i + 1 + k
      · have h2 : i ≤ j ∧ j < i + (k + 1) := by omega
        rw [if_pos h1, if_pos h2]
      · have h2 : ¬ (i ≤ j ∧ j < i + (k + 1)) := by omega
        rw [if_neg h1, if_neg h2]

theorem convertAudio_get (n : Nat) (audio : List Byte) (j : Nat) :
    (convertAudio n audio)[j]? = if j < n then audio[j]?.map flipSign else audio[j]? := by
  rw [convertAudio, audioLoop_get]
  by_cases h : j < n
  · rw [if_pos h, if_pos (by omega)]
  · rw [if_neg h, if_neg (by omega)]

/-! ## Concrete blocks -/

theorem blockOf_beyond (bytes : List Nat) (i : Nat) (h : bytes.length ≤ i) :
    blockOf bytes i = 0 := by
  unfold blockOf
  rw [List.getD_eq_getElem?_getD, List.getElem?_eq_none h]
  rfl

/-! ## Claims on decompress -/

/-- C1 (the code departs from the claim): on the block with header `10 01 00 00`, which
declares one byte, followed by the control byte `00` and eight literals, `decompress`
writes eight bytes: the cursor stops at offset 8 and the offsets 1 to 7 are written. -/
theorem decompress_writes_past_declared_length :
    declaredLength (blockOf [0x10, 0x01, 0x00, 0x00, 0x00, 1, 2, 3, 4, 5, 6, 7, 8]) = 1
      ∧ (decompress (blockOf [0x10, 0x01, 0x00, 0x00, 0x00, 1, 2, 3, 4, 5, 6, 7, 8])
            (fun _ => 0)).map (fun s => (s.op, outputPrefix s.mem 8))
          = some (8, [1, 2, 3, 4, 5, 6, 7, 8]) := by
  decide

/-- C2 (the code departs from the claim): on a block of literal tokens only whose
header declares three bytes, `decompress` copies the three literals and then five bytes
more: the number of bytes written is 8, not 3. -/
theorem decompress_literal_block_writes_whole_group :
    declaredLength (blockOf [0x10, 0x03, 0x00, 0x00, 0x00, 0xaa, 0xbb, 0xcc]) = 3
      ∧ (blockOf [0x10, 0x03, 0x00, 0x00, 0x00, 0xaa, 0xbb, 0xcc] 4).val = 0x00
      ∧ (decompress (blockOf [0x10, 0x03, 0x00, 0x00, 0x00, 0xaa, 0xbb, 0xcc])
            (fun _ => 0xff)).map (fun s => (s.op, outputPrefix s.mem 9))
          = some (8, [0xaa, 0xbb, 0xcc, 0, 0, 0, 0, 0, 0xff]) := by
  decide

/-- C3: a back-reference token with distance `d` and length `l`, executed when at least
`d` bytes have been written, moves the cursor by `l` and its `k`-th copied byte is the
byte at offset `n - d + k mod d` of the output before the token, `n` being the number of
bytes written before it; and a token with distance 1 and length 3 that follows a single
literal byte `B` leaves the four bytes `B B B B`. -/
theorem backref_copy_is_self_overlapping (inp : Input) (flags mask : Nat) (s : State)
    (hflag : flags &&& mask ≠ 0) (hd : tokenDistance (load16 inp s.ip) ≤ s.op) :
    (tokenStep inp flags mask s).op = s.op + tokenLength (load16 inp s.ip)
      ∧ (∀ k : Nat, k < tokenLength (load16 inp s.ip) →
          (tokenStep inp flags mask s).mem ((s.op + k : Nat) : Int)
            = s.mem ((s.op - tokenDistance (load16 inp s.ip)
                + k % tokenDistance (load16 inp s.ip) : Nat) : Int))
      ∧ (∀ (blk : Input) (mem : Memory) (i : Nat),
          tokenDistance (load16 blk (i + 1)) = 1 → tokenLength (load16 blk (i + 1)) = 3 →
          (tokenStep blk 0x40 0x40 (tokenStep blk 0x40 0x80 ⟨i, 0, mem⟩)).op = 4
            ∧ ∀ j : Nat, j < 4 →
                (tokenStep blk 0x40 0x40 (tokenStep blk 0x40 0x80 ⟨i, 0, mem⟩)).mem (j : Int)
                  = blk i) := by
  have hpos := tokenDistance_pos (load16 inp s.ip)
  refine ⟨?_, ?_, ?_⟩
  · rw [tokenStep_backref inp flags mask s hflag, copyLoop_op]
  · intro k hk
    rw [tokenStep_backref inp flags mask s hflag]
    have := copyLoop_periodic (tokenDistance (load16 inp s.ip)) hpos
      { s with ip := s.ip + 2 } (tokenLength (load16 inp s.ip)) k hk
    simp only [] at this
    have hm : k % tokenDistance (load16 inp s.ip) < tokenDistance (load16 inp s.ip) :=
      Nat.mod_lt _ hpos
    have e1 : ((s.op + k : Nat) : Int) = (s.op : Int) + (k : Int) := by push_cast; rfl
    have e2 : ((s.op - tokenDistance (load16 inp s.ip)
          + k % tokenDistance (load16 inp s.ip) : Nat) : Int)
        = (s.op : Int) - (tokenDistance (load16 inp s.ip) : Int)
          + ((k % tokenDistance (load16 inp s.ip) : Nat) : Int) := by
      omega
    rw [e1, e2, this]
  · intro blk mem i h1 h3
    have hlit : tokenStep blk 0x40 0x80 ⟨i, 0, mem⟩
        = { ip := i + 1, op := 1, mem := store mem ((0 : Nat) : Int) (blk i) } :=
      tokenStep_literal blk 0x40 0x80 ⟨i, 0, mem⟩ (by decide)
    rw [hlit, tokenStep_backref blk 0x40 0x40 _ (by decide)]
    simp only [h1, h3]
    refine ⟨by rw [copyLoop_op], fun j hj => ?_⟩
    cases j with
    | zero =>
      rw [copyLoop_mem_below 1 3 _ _ (by simp only []; omega)]
      dsimp only
      exact store_eq mem _ _ (blk i) rfl
    | succ j =>
      have := copyLoop_periodic 1 (Nat.le_refl 1)
        { ip := i + 1 + 2, op := 1, mem := store mem ((0 : Nat) : Int) (blk i) } 3 j (by omega)
      simp only [Nat.mod_one] at this
      have e : ((j + 1 : Nat) : Int) = ((1 : Nat) : Int) + (j : Int) := by omega
      rw [e, this]
      exact store_eq mem _ _ (blk i) (by simp)

/-- C3, at a concrete block: after the literal `0x41`, the token `00 00` (distance 1,
length 3) is executed with one byte written, and the four bytes written are `0x41`. -/
theorem backref_copy_is_self_overlapping_witness :
    (0x40 &&& 0x40 ≠ 0)
      ∧ tokenDistance (load16 (blockOf [0x10, 4, 0, 0, 0x40, 0x41, 0, 0]) 6) ≤ 1
      ∧ (tokenStep (blockOf [0x10, 4, 0, 0, 0x40, 0x41, 0, 0]) 0x40 0x40
            ⟨6, 1, store (fun _ => 0) 0 0x41⟩).op
          = 1 + tokenLength (load16 (blockOf [0x10, 4, 0, 0, 0x40, 0x41, 0, 0]) 6)
      ∧ (∀ j : Nat, j < 4 →
          (tokenStep (blockOf [0x10, 4, 0, 0, 0x40, 0x41, 0, 0]) 0x40 0x40
            (tokenStep (blockOf [0x10, 4, 0, 0, 0x40, 0x41, 0, 0]) 0x40 0x80
              ⟨5, 0, fun _ => 0⟩)).mem (j : Int)
            = blockOf [0x10, 4, 0, 0, 0x40, 0x41, 0, 0] 5) :=
  ⟨by decide, by decide,
    (backref_copy_is_self_overlapping (blockOf [0x10, 4, 0, 0, 0x40, 0x41, 0, 0]) 0x40 0x40
      ⟨6, 1, store (fun _ => 0) 0 0x41⟩ (by decide) (by decide)).1,
    ((backref_copy_is_self_overlapping (blockOf [0x10, 4, 0, 0, 0x40, 0x41, 0, 0]) 0x40 0x40
      ⟨6, 1, store (fun _ => 0) 0 0x41⟩ (by decide) (by decide)).2.2
        (blockOf [0x10, 4, 0, 0, 0x40, 0x41, 0, 0]) (fun _ => 0) 5
        (by decide) (by decide)).2⟩

/-! ## Claims on the palette expansion, the frame loops and the audio loop -/

/-- C4: for every 16-bit raw palette entry `n`, `CONVERT_555_888(n)` is below `2^24`,
its byte 2 is `((n >> 10) & 0x1f) << 3`, its byte 1 is `((n >> 5) & 0x1f) << 3`, its
byte 0 is `(n & 0x1f) << 3`; the low three bits of each byte are zero, and bit 15 of `n`
has no effect. -/
theorem CONVERT_555_888_channels (n : Half) :
    CONVERT_555_888 n.val < 2 ^ 24
      ∧ (CONVERT_555_888 n.val >>> 16) &&& 0xff = ((n.val >>> 10) &&& 0x1f) <<< 3
      ∧ (CONVERT_555_888 n.val >>> 8) &&& 0xff = ((n.val >>> 5) &&& 0x1f) <<< 3
      ∧ CONVERT_555_888 n.val &&& 0xff = (n.val &&& 0x1f) <<< 3
      ∧ (CONVERT_555_888 n.val >>> 16) &&& 0x07 = 0
      ∧ (CONVERT_555_888 n.val >>> 8) &&& 0x07 = 0
      ∧ CONVERT_555_888 n.val &&& 0x07 = 0
      ∧ CONVERT_555_888 n.val = CONVERT_555_888 (n.val &&& 0x7fff) := by
  have m8 : ∀ v : Nat, v &&& 0xff = v % 256 := fun v => and_low_mask v 8
  have m5 : ∀ v : Nat, v &&& 0x1f = v % 32 := fun v => and_low_mask v 5
  have m3 : ∀ v : Nat, v &&& 0x07 = v % 8 := fun v => and_low_mask v 3
  have m15 : n.val &&& 0x7fff = n.val % 32768 := and_low_mask n.val 15
  have s16 : ∀ v : Nat, v >>> 16 = v / 65536 := fun v => Nat.shiftRight_eq_div_pow v 16
  have s10 : ∀ v : Nat, v >>> 10 = v / 1024 := fun v => Nat.shiftRight_eq_div_pow v 10
  have s8 : ∀ v : Nat, v >>> 8 = v / 256 := fun v => Nat.shiftRight_eq_div_pow v 8
  have s5 : ∀ v : Nat, v >>> 5 = v / 32 := fun v => Nat.shiftRight_eq_div_pow v 5
  have l3 : ∀ v : Nat, v <<< 3 = v * 8 := fun v => Nat.shiftLeft_eq v 3
  have e15 : CONVERT_555_888 (n.val % 32768) = CONVERT_555_888 n.val := by
    rw [CONVERT_555_888_eq, CONVERT_555_888_eq]; omega
  rw [m15, e15]
  simp only [s16, s10, s8, s5, l3, m8, m5, m3, CONVERT_555_888_eq]
  have hr : n.val / 1024 % 32 < 32 := Nat.mod_lt _ (by decide)
  have hg : n.val / 32 % 32 < 32 := Nat.mod_lt _ (by decide)
  have hb : n.val % 32 < 32 := Nat.mod_lt _ (by decide)
  generalize n.val / 1024 % 32 = r at hr ⊢
  generalize n.val / 32 % 32 = g at hg ⊢
  generalize n.val % 32 = b at hb ⊢
  refine ⟨?_, ?_, ?_, ?_, ?_, ?_, ?_, trivial⟩ <;> omega

/-- C5: for every indexed image and every expanded palette the frame loops of
`convert_frame` write 240 * 160 * 3 = 115200 bytes, and for `x < 240`, `y < 160` the
three bytes at offset `3 * ((159 - y) * 240 + x)` are bits 16 to 23, bits 8 to 15 and
bits 0 to 7 of `palette[image[y * 240 + x]]`, so that row 0 of the image is the last
row written; and when every pixel of the image is the index `k`, every pixel triple of
the output is made of the three bytes of palette entry `k`. -/
theorem frame_loops_depalettise_and_flip (image : Memory) (palette : Nat → Nat)
    (x y : Nat) (hx : x < 240) (hy : y < 160) :
    (yLoop image palette GBA_HEIGHT []).length = 115200
      ∧ GBA_WIDTH * GBA_HEIGHT * 3 = 115200
      ∧ (yLoop image palette GBA_HEIGHT [])[3 * ((159 - y) * 240 + x)]?
          = some (toByte (palette (image ((y * 240 + x : Nat) : Int)).val / 65536 % 256))
      ∧ (yLoop image palette GBA_HEIGHT [])[3 * ((159 - y) * 240 + x) + 1]?
          = some (toByte (palette (image ((y * 240 + x : Nat) : Int)).val / 256 % 256))
      ∧ (yLoop image palette GBA_HEIGHT [])[3 * ((159 - y) * 240 + x) + 2]?
          = some (toByte (palette (image ((y * 240 + x : Nat) : Int)).val % 256))
      ∧ (∀ k : Byte, (∀ i : Nat, i < 38400 → image (i : Int) = k) →
          ∀ p : Nat, p < 38400 →
            (yLoop image palette GBA_HEIGHT [])[3 * p]?
                = some (toByte (palette k.val / 65536 % 256))
              ∧ (yLoop image palette GBA_HEIGHT [])[3 * p + 1]?
                = some (toByte (palette k.val / 256 % 256))
              ∧ (yLoop image palette GBA_HEIGHT [])[3 * p + 2]?
                = some (toByte (palette k.val % 256))) := by
  have b16 : ∀ v : Nat, toByte (v >>> 16) = toByte (v / 65536 % 256) := fun v => by
    apply Fin.ext; simp only [toByte, Nat.shiftRight_eq_div_pow]; omega
  have b8 : ∀ v : Nat, toByte (v >>> 8) = toByte (v / 256 % 256) := fun v => by
    apply Fin.ext; simp only [toByte, Nat.shiftRight_eq_div_pow]; omega
  have b0 : ∀ v : Nat, toByte v = toByte (v % 256) := fun v => by
    apply Fin.ext; simp only [toByte]; omega
  have key : ∀ (x y c : Nat), x < 240 → y < 160 → c < 3 →
      (yLoop image palette GBA_HEIGHT [])[3 * ((159 - y) * 240 + x) + c]?
        = (pixelBytes (palette (image ((y * 240 + x : Nat) : Int)).val))[c]? :=
    fun x y c hx hy hc => frame_get image palette x y c hx hy hc
  refine ⟨frame_length image palette, rfl, ?_, ?_, ?_, ?_⟩
  · have := key x y 0 hx hy (by omega)
    rw [Nat.add_zero] at this
    rw [this, ← b16]; rfl
  · rw [key x y 1 hx hy (by omega), ← b8]; rfl
  · rw [key x y 2 hx hy (by omega), ← b0]; rfl
  · intro k hk p hp
    have e : p = (159 - (159 - p / 240)) * 240 + p % 240 := by omega
    have hi : (159 - p / 240) * 240 + p % 240 < 38400 := by omega
    have k0 := key (p % 240) (159 - p / 240) 0 (by omega) (by omega) (by omega)
    have k1 := key (p % 240) (159 - p / 240) 1 (by omega) (by omega) (by omega)
    have k2 := key (p % 240) (159 - p / 240) 2 (by omega) (by omega) (by omega)
    rw [← e, hk _ hi] at k0 k1 k2
    rw [Nat.add_zero] at k0
    rw [k0, k1, k2, ← b16, ← b8, ← b0]
    exact ⟨rfl, rfl, rfl⟩

/-- C5, at the image whose pixel at offset `i` is `i mod 256`, with the identity
palette: the pixel at column 5 of image row 0 is written at the start of the last
output row. -/
theorem frame_loops_depalettise_and_flip_witness :
    (5 < 240) ∧ (0 < 160)
      ∧ (yLoop (fun a => toByte a.toNat) (fun i => i) GBA_HEIGHT [])[3 * ((159 - 0) * 240 + 5) + 2]?
          = some (toByte ((fun i : Nat => i)
              ((fun a : Int => toByte a.toNat) ((0 * 240 + 5 : Nat) : Int)).val % 256)) :=
  ⟨by decide, by decide,
    (frame_loops_depalettise_and_flip (fun a => toByte a.toNat) (fun i => i) 5 0
      (by decide) (by decide)).2.2.2.2.1⟩

/-- C6: the audio conversion of `main` is its own inverse on every byte buffer; it keeps
the length of the buffer, and its output byte `i` is `x[i] XOR 0x80` for every index
`i`. -/
theorem convertAudio_involutive (x : List Byte) :
    convertAudio x.length (convertAudio x.length x) = x
      ∧ (convertAudio x.length x).length = x.length
      ∧ (∀ (i : Nat) (b : Byte), x[i]? = some b →
          ∃ c : Byte, (convertAudio x.length x)[i]? = some c ∧ c.val = b.val ^^^ 0x80) := by
  refine ⟨?_, audioLoop_length _ _ _, ?_⟩
  · apply List.ext_getElem?
    intro j
    rw [convertAudio_get, convertAudio_get]
    by_cases h : j < x.length
    · rw [if_pos h, if_pos h, List.getElem?_eq_getElem h]
      simp only [Option.map_some', flipSign_flipSign]
    · rw [if_neg h, if_neg h]
  · intro i b hb
    have hi : i < x.length := by
      rcases List.getElem?_eq_some.mp hb with ⟨h, _⟩
      exact h
    refine ⟨flipSign b, ?_, flipSign_val b⟩
    rw [convertAudio_get, if_pos hi, hb]
    rfl

/-- C6, at a three-sample buffer. -/
theorem convertAudio_involutive_witness :
    ([0x00, 0x7f, 0x80] : List Byte)[1]? = some 0x7f
      ∧ ∃ c : Byte, (convertAudio 3 [0x00, 0x7f, 0x80])[1]? = some c
          ∧ c.val = (0x7f : Byte).val ^^^ 0x80 :=
  ⟨rfl, (convertAudio_involutive [0x00, 0x7f, 0x80]).2.2 1 0x7f rfl⟩

/-! ## Runs of decompress on memories that agree below the cursor -/

theorem copyLoop_agree (d : Nat) (hd : 1 ≤ d) :
    ∀ (n : Nat) (s1 s2 : State), AgreeBelow s1 s2 →
      AgreeBelow (copyLoop d n s1) (copyLoop d n s2)
  | 0, _, _, h => h
  | n + 1, s1, s2, h => by
    obtain ⟨hip, hop, hmem⟩ := h
    rw [copyLoop, copyLoop]
    apply copyLoop_agree d hd n
    refine ⟨hip, by simp only [hop], fun a ha => ?_⟩
    simp only [] at ha ⊢
    rw [← hop]
    by_cases e : a = (s1.op : Int)
    · rw [store_eq _ _ _ _ e, store_eq _ _ _ _ e]
      exact hmem _ (by omega)
    · rw [store_other _ _ _ _ e, store_other _ _ _ _ e]
      exact hmem a (by push_cast at ha; omega)

theorem tokenStep_agree (inp : Input) (flags mask : Nat) (s1 s2 : State)
    (h : AgreeBelow s1 s2) :
    AgreeBelow (tokenStep inp flags mask s1) (tokenStep inp flags mask s2) := by
  obtain ⟨hip, hop, hmem⟩ := h
  by_cases hf : flags &&& mask = 0
  · rw [tokenStep_literal inp flags mask s1 hf, tokenStep_literal inp flags mask s2 hf]
    refine ⟨by simp only [hip], by simp only [hop], fun a ha => ?_⟩
    simp only [] at ha ⊢
    rw [← hop, ← hip]
    by_cases e : a = (s1.op : Int)
    · rw [store_eq _ _ _ _ e, store_eq _ _ _ _ e]
    · rw [store_other _ _ _ _ e, store_other _ _ _ _ e]
      exact hmem a (by push_cast at ha; omega)
  · rw [tokenStep_backref inp flags mask s1 hf, tokenStep_backref inp flags mask s2 hf,
      ← hip]
    exact copyLoop_agree _ (tokenDistance_pos _) _ _ _ ⟨by simp only [hip], hop, hmem⟩

theorem group_agree (inp : Input) (s1 s2 : State) (h : AgreeBelow s1 s2) :
    AgreeBelow (group inp s1) (group inp s2) := by
  rw [group_eq, group_eq, ← h.1]
  have h0 : AgreeBelow { s1 with ip := s1.ip + 1 } { s2 with ip := s1.ip + 1 } :=
    ⟨rfl, h.2.1, h.2.2⟩
  exact tokenStep_agree _ _ _ _ _ (tokenStep_agree _ _ _ _ _ (tokenStep_agree _ _ _ _ _
    (tokenStep_agree _ _ _ _ _ (tokenStep_agree _ _ _ _ _ (tokenStep_agree _ _ _ _ _
      (tokenStep_agree _ _ _ _ _ (tokenStep_agree _ _ _ _ _ h0)))))))

theorem whileLoop_agree (inp : Input) (stop : Nat) :
    ∀ (fuel : Nat) (s1 s2 r1 : State), AgreeBelow s1 s2 →
      whileLoop inp stop fuel s1 = some r1 →
      ∃ r2, whileLoop inp stop fuel s2 = some r2 ∧ AgreeBelow r1 r2
  | 0, s1, s2, r1, h, hrun => by
    by_cases hs : s1.op < stop
    · simp [whileLoop, hs] at hrun
    · rw [whileLoop_done inp stop 0 s1 (by omega)] at hrun
      refine ⟨s2, whileLoop_done inp stop 0 s2 (by rw [← h.2.1]; omega), ?_⟩
      rw [← Option.some.inj hrun]; exact h
  | fuel + 1, s1, s2, r1, h, hrun => by
    by_cases hs : s1.op < stop
    · rw [whileLoop_step inp stop fuel s1 hs] at hrun
      rw [whileLoop_step inp stop fuel s2 (by rw [← h.2.1]; exact hs)]
      exact whileLoop_agree inp stop fuel _ _ r1 (group_agree inp s1 s2 h) hrun
    · rw [whileLoop_done inp stop _ s1 (by omega)] at hrun
      refine ⟨s2, whileLoop_done inp stop _ s2 (by rw [← h.2.1]; omega), ?_⟩
      rw [← Option.some.inj hrun]; exact h

/-- Two runs of `decompress` on the same block, over memories that agree below the
output buffer, end with the same cursors and the same bytes below the output cursor. -/
theorem decompress_agree (inp : Input) (mem1 mem2 : Memory)
    (h : ∀ a : Int, a < 0 → mem1 a = mem2 a) (r1 : State)
    (hrun : decompress inp mem1 = some r1) :
    ∃ r2, decompress inp mem2 = some r2 ∧ AgreeBelow r1 r2 :=
  whileLoop_agree inp _ _ ⟨4, 0, mem1⟩ ⟨4, 0, mem2⟩ r1
    ⟨rfl, rfl, fun a ha => h a (by simpa using ha)⟩ hrun

/-! ## Claims on convert_frame -/

/-- C7: for a block whose header declares 240 * 160 = 38400 bytes and whose remaining
bytes (control bytes and literals) are all zero, and a raw palette whose entry 0 is
`0x0000`, `convert_frame` writes a frame of 115200 bytes, all of them zero. -/
theorem convert_frame_zero_block (in_image : Input) (in_palette : Nat → Half)
    (image : Memory) (palette : Nat → Nat)
    (hL : declaredLength in_image = 38400)
    (hz : ∀ i : Nat, 4 ≤ i → i < 43204 → in_image i = 0)
    (hp : in_palette 0 = 0) :
    convert_frame in_image in_palette image palette = some (List.replicate 115200 0) := by
  obtain ⟨s, hrun, hop, _, hmem, _, _⟩ := decompress_literal in_image image
    (fun k hk => hz _ (by omega) (by omega))
  rw [hL] at hop
  have hpx : ∀ i : Nat, i < 38400 →
      paletteLoop in_palette GBA_PALETTE_ENTRIES 0 palette (s.mem (i : Int)).val = 0 := by
    intro i hi
    rw [hmem i (by omega), hz _ (by omega) (by omega)]
    have := paletteLoop_byte in_palette palette 0
    have hv : (0 : Byte).val = 0 := rfl
    rw [hv, hp] at this
    exact this.trans CONVERT_555_888_zero
  rw [convert_frame, hrun, Option.map_some']
  refine congrArg some ?_
  apply List.ext_getElem?
  intro n
  by_cases hn : n < 115200
  · have e : n = 3 * ((GBA_HEIGHT - 1 - (159 - n / 3 / 240)) * GBA_WIDTH + n / 3 % 240) + n % 3 := by
      unfold GBA_HEIGHT GBA_WIDTH; omega
    have hy : 159 - n / 3 / 240 < GBA_HEIGHT := by unfold GBA_HEIGHT; omega
    have hx : n / 3 % 240 < GBA_WIDTH := by unfold GBA_WIDTH; omega
    have hc : n % 3 < 3 := by omega
    have hidx : (159 - n / 3 / 240) * GBA_WIDTH + n / 3 % 240 < 38400 := by
      unfold GBA_WIDTH; omega
    have := frame_get s.mem (paletteLoop in_palette GBA_PALETTE_ENTRIES 0 palette)
      (n / 3 % 240) (159 - n / 3 / 240) (n % 3) hx hy hc
    rw [← e, hpx _ hidx] at this
    rw [this, List.getElem?_replicate, if_pos hn]
    have h3 : n % 3 = 0 ∨ n % 3 = 1 ∨ n % 3 = 2 := by omega
    rcases h3 with h | h | h <;> rw [h] <;> rfl
  · rw [List.getElem?_eq_none (by rw [frame_length]; omega),
      List.getElem?_eq_none (by rw [List.length_replicate]; omega)]

/-- C7, at the block `10 00 96 00` followed by zeros, with stale work buffers. -/
theorem convert_frame_zero_block_witness :
    declaredLength (blockOf [0x10, 0x00, 0x96, 0x00]) = 38400
      ∧ (∀ i : Nat, 4 ≤ i → i < 43204 → blockOf [0x10, 0x00, 0x96, 0x00] i = 0)
      ∧ (fun _ => 0 : Nat → Half) 0 = 0
      ∧ convert_frame (blockOf [0x10, 0x00, 0x96, 0x00]) (fun _ => 0) (fun _ => 0xff)
          (fun _ => 0xffffff) = some (List.replicate 115200 0) :=
  ⟨by decide, fun i hi _ => blockOf_beyond _ i hi, rfl,
    convert_frame_zero_block (blockOf [0x10, 0x00, 0x96, 0x00]) (fun _ => 0) (fun _ => 0xff)
      (fun _ => 0xffffff) (by decide) (fun i hi _ => blockOf_beyond _ i hi) rfl⟩

/-- C8 (the claim as stated fails): on a block whose header declares no byte,
`decompress` writes nothing, and the frame is built from what the image array held
before: two runs with the same arguments, on an array of zeros and on an array of ones,
give different frames. -/
theorem convert_frame_shows_stale_image :
    convert_frame (blockOf []) (fun i => if i = 1 then 0x7fff else 0) (fun _ => 0) (fun _ => 0)
      ≠ convert_frame (blockOf []) (fun i => if i = 1 then 0x7fff else 0) (fun _ => 1)
          (fun _ => 0) := by
  intro h
  have hrun : ∀ mem : Memory, decompress (blockOf []) mem = some ⟨4, 0, mem⟩ := by
    intro mem
    obtain ⟨s, hs, _, _, h0, _⟩ := decompress_spec (blockOf []) mem
    rw [hs, h0 (by decide)]
  rw [convert_frame, convert_frame, hrun, hrun, Option.map_some', Option.map_some'] at h
  have hl := congrArg (fun l : List Byte => l[0]?) (Option.some.inj h)
  have g1 := frame_get (fun _ => 0)
    (paletteLoop (fun i => if i = 1 then 0x7fff else 0) GBA_PALETTE_ENTRIES 0 (fun _ => 0))
    0 159 0 (by decide) (by decide) (by decide)
  have g2 := frame_get (fun _ => 1)
    (paletteLoop (fun i => if i = 1 then 0x7fff else 0) GBA_PALETTE_ENTRIES 0 (fun _ => 0))
    0 159 0 (by decide) (by decide) (by decide)
  have p0 := paletteLoop_byte (fun i => if i = 1 then 0x7fff else 0) (fun _ => 0) 0
  have p1 := paletteLoop_byte (fun i => if i = 1 then 0x7fff else 0) (fun _ => 0) 1
  rw [p0] at g1
  rw [p1] at g2
  simp only [] at hl
  have e : 3 * ((GBA_HEIGHT - 1 - 159) * GBA_WIDTH + 0) + 0 = 0 := by decide
  rw [e] at g1 g2
  rw [g1, g2] at hl
  revert hl
  decide

/-- C8 (amended): when the header declares at least 38400 bytes, the frame written by
`convert_frame` is the same whatever the two static arrays held before, given the same
memory below the image array. -/
theorem convert_frame_independent_of_work_buffers (in_image : Input)
    (in_palette : Nat → Half) (image1 image2 : Memory) (palette1 palette2 : Nat → Nat)
    (hL : 38400 ≤ declaredLength in_image)
    (hbelow : ∀ a : Int, a < 0 → image1 a = image2 a) :
    convert_frame in_image in_palette image1 palette1
      = convert_frame in_image in_palette image2 palette2 := by
  obtain ⟨r1, hrun1, hge, _⟩ := decompress_spec in_image image1
  obtain ⟨r2, hrun2, _, _, hmem⟩ := decompress_agree in_image image1 image2 hbelow r1 hrun1
  rw [convert_frame, convert_frame, hrun1, hrun2, Option.map_some', Option.map_some']
  refine congrArg some ?_
  apply yLoop_congr
  intro i hi
  have hi' : i < 38400 := hi
  rw [paletteLoop_byte, paletteLoop_byte, hmem (i : Int) (by omega)]

/-- C8 (amended), at the block `10 00 96 00` followed by zeros, on two image arrays that
differ and two palette arrays that differ. -/
theorem convert_frame_independent_of_work_buffers_witness :
    38400 ≤ declaredLength (blockOf [0x10, 0x00, 0x96, 0x00])
      ∧ (∀ a : Int, a < 0 →
          (fun _ => 0 : Memory) a = (fun b => if 0 ≤ b then 0xff else 0 : Memory) a)
      ∧ convert_frame (blockOf [0x10, 0x00, 0x96, 0x00]) (fun _ => 0x1234) (fun _ => 0)
            (fun _ => 0)
          = convert_frame (blockOf [0x10, 0x00, 0x96, 0x00]) (fun _ => 0x1234)
              (fun b => if 0 ≤ b then 0xff else 0) (fun _ => 0xffffff) :=
  ⟨by decide, fun a ha => (if_neg (by omega)).symm,
    convert_frame_independent_of_work_buffers (blockOf [0x10, 0x00, 0x96, 0x00])
      (fun _ => 0x1234) (fun _ => 0) (fun b => if 0 ≤ b then 0xff else 0) (fun _ => 0)
      (fun _ => 0xffffff) (by decide) (fun a ha => (if_neg (by omega)).symm)⟩

/-! ## Claims on the absence of checks -/

/-- C9 (the claim as stated fails): the block `10 03 00 00 80 00 00 ...` opens with a
back-reference of distance 1 while no byte has been written; `decompress` returns, and
the three bytes it copies repeat the byte at offset -1, below the output buffer. -/
theorem decompress_copies_from_below_buffer :
    ((blockOf [0x10, 0x03, 0x00, 0x00, 0x80, 0x00, 0x00, 2, 3, 4, 5, 6, 7, 8] 4).val
        &&& 0x80 ≠ 0)
      ∧ 0 < tokenDistance
          (load16 (blockOf [0x10, 0x03, 0x00, 0x00, 0x80, 0x00, 0x00, 2, 3, 4, 5, 6, 7, 8]) 5)
      ∧ (decompress (blockOf [0x10, 0x03, 0x00, 0x00, 0x80, 0x00, 0x00, 2, 3, 4, 5, 6, 7, 8])
            (fun a => if a = -1 then 9 else 0)).map (fun s => (s.op, outputPrefix s.mem 3))
          = some (10, [9, 9, 9]) := by
  decide

/-- C9 (amended): `decompress` has no failure outcome and returns on every input; a
back-reference whose distance `d` exceeds the number `n` of bytes written is executed
like any other: it moves the cursor by its length, and for `k < d - n` its `k`-th copied
byte is the byte at offset `n + k - d < 0`, a cell below the output buffer. -/
theorem backref_beyond_start_reads_below_buffer (inp : Input) (mem : Memory)
    (flags mask : Nat) (s : State)
    (hflag : flags &&& mask ≠ 0) (hd : s.op < tokenDistance (load16 inp s.ip)) :
    (∃ r, decompress inp mem = some r)
      ∧ (tokenStep inp flags mask s).op = s.op + tokenLength (load16 inp s.ip)
      ∧ ∀ k : Nat, k < tokenLength (load16 inp s.ip) →
          k < tokenDistance (load16 inp s.ip) - s.op →
          (s.op : Int) + k - tokenDistance (load16 inp s.ip) < 0
            ∧ (tokenStep inp flags mask s).mem ((s.op + k : Nat) : Int)
                = s.mem ((s.op : Int) + k - tokenDistance (load16 inp s.ip)) := by
  obtain ⟨r, hr, _⟩ := decompress_spec inp mem
  refine ⟨⟨r, hr⟩, ?_, ?_⟩
  · rw [tokenStep_backref inp flags mask s hflag, copyLoop_op]
  · intro k hk hkd
    refine ⟨by omega, ?_⟩
    rw [tokenStep_backref inp flags mask s hflag]
    have := copyLoop_periodic (tokenDistance (load16 inp s.ip)) (tokenDistance_pos _)
      { s with ip := s.ip + 2 } (tokenLength (load16 inp s.ip)) k hk
    simp only [] at this
    rw [Nat.mod_eq_of_lt (by omega)] at this
    have e1 : ((s.op + k : Nat) : Int) = (s.op : Int) + (k : Int) := by push_cast; rfl
    have e2 : (s.op : Int) + k - tokenDistance (load16 inp s.ip)
        = (s.op : Int) - tokenDistance (load16 inp s.ip) + (k : Int) := by omega
    rw [e1, e2, this]

/-- C9 (amended), at a block that opens with a back-reference of distance 1. -/
theorem backref_beyond_start_reads_below_buffer_witness :
    (0x80 &&& 0x80 ≠ 0)
      ∧ 0 < tokenDistance (load16 (blockOf [0x10, 0x03, 0x00, 0x00, 0x80, 0x00, 0x00]) 5)
      ∧ (∃ r, decompress (blockOf [0x10, 0x03, 0x00, 0x00, 0x80, 0x00, 0x00])
            (fun a => if a = -1 then 9 else 0) = some r)
      ∧ (tokenStep (blockOf [0x10, 0x03, 0x00, 0x00, 0x80, 0x00, 0x00]) 0x80 0x80
            ⟨5, 0, fun a => if a = -1 then 9 else 0⟩).op
          = 0 + tokenLength (load16 (blockOf [0x10, 0x03, 0x00, 0x00, 0x80, 0x00, 0x00]) 5) :=
  ⟨by decide, by decide,
    (backref_beyond_start_reads_below_buffer (blockOf [0x10, 0x03, 0x00, 0x00, 0x80, 0x00, 0x00])
      (fun a => if a = -1 then 9 else 0) 0x80 0x80 ⟨5, 0, fun a => if a = -1 then 9 else 0⟩
      (by decide) (by decide)).1,
    (backref_beyond_start_reads_below_buffer (blockOf [0x10, 0x03, 0x00, 0x00, 0x80, 0x00, 0x00])
      (fun a => if a = -1 then 9 else 0) 0x80 0x80 ⟨5, 0, fun a => if a = -1 then 9 else 0⟩
      (by decide) (by decide)).2.1⟩

/-- C10 (the claim as stated fails): on the block `10 01 96 00` followed by zeros, whose
header declares 38401 bytes, `decompress` returns with its cursor at offset 38408 and
has overwritten the cell at offset 38400, the first one after the image array, and
`convert_frame` returns a frame. -/
theorem convert_frame_accepts_oversized_block :
    declaredLength (blockOf [0x10, 0x01, 0x96, 0x00]) = 38401
      ∧ ∃ (s : State) (frame : List Byte),
          decompress (blockOf [0x10, 0x01, 0x96, 0x00]) (fun _ => 0xff) = some s
            ∧ s.op = 38408
            ∧ s.mem 38400 = 0
            ∧ convert_frame (blockOf [0x10, 0x01, 0x96, 0x00]) (fun _ => 0) (fun _ => 0xff)
                (fun _ => 0) = some frame := by
  have hL : declaredLength (blockOf [0x10, 0x01, 0x96, 0x00]) = 38401 := by decide
  obtain ⟨s, hrun, hop, _, hmem, _, _⟩ :=
    decompress_literal (blockOf [0x10, 0x01, 0x96, 0x00]) (fun _ => 0xff)
      (fun k _ => blockOf_beyond _ _
        (by show 4 ≤ 4 + 9 * k; omega))
  rw [hL] at hop
  refine ⟨hL, s, _, hrun, hop, ?_, by rw [convert_frame, hrun]; rfl⟩
  have := hmem 38400 (by omega)
  rw [blockOf_beyond _ _ (by show 4 ≤ 5 + 38400 + 38400 / 8; omega)] at this
  exact this

/-- C10 (amended): `convert_frame` and `decompress` do not compare the declared length
with the 38400 bytes of the image array and have no failure outcome: on every block
`decompress` returns with its cursor at or beyond the declared length, whatever that
length is, and `convert_frame` returns a frame of 115200 bytes. -/
theorem convert_frame_never_rejects (in_image : Input) (in_palette : Nat → Half)
    (image : Memory) (palette : Nat → Nat) :
    ∃ (s : State) (frame : List Byte),
      decompress in_image image = some s
        ∧ declaredLength in_image ≤ s.op
        ∧ convert_frame in_image in_palette image palette = some frame
        ∧ frame.length = 115200 := by
  obtain ⟨s, hrun, hge, _⟩ := decompress_spec in_image image
  exact ⟨s, _, hrun, hge, by rw [convert_frame, hrun]; rfl, frame_length _ _⟩

/-! ## Claims on the arithmetic: tokens, addresses, samples, colours -/

theorem toByte_val (n : Nat) : (toByte n).val = n % 256 := rfl

theorem load16_lt (inp : Input) (i : Nat) : load16 inp i < 65536 := by
  have h0 := (inp i).isLt
  have h1 := (inp (i + 1)).isLt
  unfold load16
  omega

theorem load32_lt (inp : Input) (i : Nat) : load32 inp i < 4294967296 := by
  have h0 := (inp i).isLt
  have h1 := (inp (i + 1)).isLt
  have h2 := (inp (i + 2)).isLt
  have h3 := (inp (i + 3)).isLt
  unfold load32
  omega

/-- C15: for every pair of token bytes `b0`, `b1` (the token being their little-endian
16-bit value) the decoded distance is `(((b0 & 0x0f) << 8) | b1) + 1` and the decoded
length is `(b0 >> 4) + 3`; the distance takes exactly the values 1 to 4096 and the length
exactly the values 3 to 18, and neither computation exceeds 16 bits. -/
theorem token_decoding (b0 b1 : Byte) :
    tokenDistance (b0.val + 256 * b1.val) = (((b0.val &&& 0x0f) <<< 8) ||| b1.val) + 1
      ∧ tokenLength (b0.val + 256 * b1.val) = (b0.val >>> 4) + 3
      ∧ 1 ≤ tokenDistance (b0.val + 256 * b1.val)
      ∧ tokenDistance (b0.val + 256 * b1.val) ≤ 4096
      ∧ 3 ≤ tokenLength (b0.val + 256 * b1.val)
      ∧ tokenLength (b0.val + 256 * b1.val) ≤ 18
      ∧ (((b0.val &&& 0x0f) <<< 8) ||| b1.val) + 1 < 65536
      ∧ (b0.val >>> 4) + 3 < 65536
      ∧ (∀ d : Nat, 1 ≤ d → d ≤ 4096 →
          ∃ c0 c1 : Byte, tokenDistance (c0.val + 256 * c1.val) = d)
      ∧ (∀ l : Nat, 3 ≤ l → l ≤ 18 →
          ∃ c0 c1 : Byte, tokenLength (c0.val + 256 * c1.val) = l) := by
  have h0 := b0.isLt
  have h1 : b1.val < 2 ^ 8 := b1.isLt
  have h1' : b1.val < 256 := b1.isLt
  have m4 : b0.val &&& 0x0f = b0.val % 16 := and_low_mask b0.val 4
  have s8 : (b0.val % 16) <<< 8 = 2 ^ 8 * (b0.val % 16) := by
    rw [Nat.shiftLeft_eq, Nat.mul_comm]
  have s4 : b0.val >>> 4 = b0.val / 16 := Nat.shiftRight_eq_div_pow b0.val 4
  have ed : (((b0.val &&& 0x0f) <<< 8) ||| b1.val) = (b0.val % 16) * 256 + b1.val := by
    rw [m4, s8, ← Nat.mul_add_lt_is_or h1]; omega
  have t1 : (b0.val + 256 * b1.val) % 16 = b0.val % 16 := by omega
  have t2 : (b0.val + 256 * b1.val) / 256 = b1.val := by omega
  have t3 : (b0.val + 256 * b1.val) / 16 = b0.val / 16 + 16 * b1.val := by omega
  have t4 : (b0.val / 16 + 16 * b1.val) % 16 = b0.val / 16 := by omega
  rw [ed, s4, tokenDistance_eq, tokenLength_eq, t1, t2, t3, t4, Nat.mod_eq_of_lt h1']
  clear ed s8 m4 s4
  refine ⟨rfl, rfl, by omega, by omega, by omega, by omega, by omega, by omega,
    ?_, ?_⟩
  · intro d hd1 hd2
    refine ⟨toByte ((d - 1) / 256), toByte ((d - 1) % 256), ?_⟩
    rw [tokenDistance_eq, toByte_val, toByte_val]
    have hhi : (d - 1) / 256 < 16 := by omega
    have hlo : (d - 1) % 256 < 256 := Nat.mod_lt _ (by decide)
    have hd : d = (d - 1) / 256 * 256 + (d - 1) % 256 + 1 := by omega
    rw [Nat.mod_eq_of_lt (by omega : (d - 1) / 256 < 256), Nat.mod_eq_of_lt hlo]
    generalize (d - 1) / 256 = hi at hhi hd ⊢
    generalize (d - 1) % 256 = lo at hlo hd ⊢
    have e1 : (hi + 256 * lo) % 16 = hi := by omega
    have e2 : (hi + 256 * lo) / 256 = lo := by omega
    rw [e1, e2, Nat.mod_eq_of_lt hlo]
    omega
  · intro l hl1 hl2
    refine ⟨toByte ((l - 3) * 16), 0, ?_⟩
    rw [tokenLength_eq, toByte_val]
    have : ((0 : Byte).val) = 0 := rfl
    rw [this, Nat.mod_eq_of_lt (by omega : (l - 3) * 16 < 256)]
    omega

/-- C15, at the token bytes `2f 10`: distance `0xf10 + 1`, length `2 + 3`. -/
theorem token_decoding_witness :
    (1 ≤ 3858 ∧ 3858 ≤ 4096)
      ∧ tokenDistance ((0x2f : Byte).val + 256 * (0x10 : Byte).val) = 3857
      ∧ ∃ c0 c1 : Byte, tokenDistance (c0.val + 256 * c1.val) = 3858 :=
  ⟨by decide, by decide,
    (token_decoding 0x2f 0x10).2.2.2.2.2.2.2.2.1 3858 (by decide) (by decide)⟩

/-- C16: for a 32-bit table address `a` at or above the load base `0x8000000`, the
offset `a - 0x8000000` computed in 32-bit unsigned arithmetic is the mathematical
difference and lies below `2^32 - 0x8000000`; for `a` below the load base it wraps to
`a + 2^32 - 0x8000000`. -/
theorem address_translation (a : Nat) (ha : a < 4294967296) :
    GBA_ROM_LOAD_ADDRESS = 0x8000000
      ∧ (GBA_ROM_LOAD_ADDRESS ≤ a →
          fileOffset a = a - 0x8000000
            ∧ (fileOffset a : Int) = (a : Int) - 0x8000000
            ∧ fileOffset a < 4294967296 - 0x8000000)
      ∧ (a < GBA_ROM_LOAD_ADDRESS → fileOffset a = a + 4294967296 - 0x8000000) := by
  unfold fileOffset GBA_ROM_LOAD_ADDRESS
  refine ⟨rfl, fun h => ?_, fun h => ?_⟩ <;> omega

/-- C16, at the addresses `0x8123456` and `0x100`. -/
theorem address_translation_witness :
    ((0x8123456 : Nat) < 4294967296 ∧ GBA_ROM_LOAD_ADDRESS ≤ 0x8123456
        ∧ fileOffset 0x8123456 = 0x8123456 - 0x8000000)
      ∧ ((0x100 : Nat) < GBA_ROM_LOAD_ADDRESS
        ∧ fileOffset 0x100 = 0x100 + 4294967296 - 0x8000000) :=
  ⟨⟨by decide, by decide,
      ((address_translation 0x8123456 (by decide)).2.1 (by decide)).1⟩,
    ⟨by decide, (address_translation 0x100 (by decide)).2.2 (by decide)⟩⟩

set_option maxRecDepth 100000 in
theorem xor_0x80_eq_add : ∀ b : Byte, b.val ^^^ 0x80 = (b.val + 128) % 256 := by decide

/-- C17: for every byte `b`, `b XOR 0x80 = (b + 128) mod 256`; a sample of signed value
`s` in `[-128, 127]` becomes the unsigned value `s + 128`, an unsigned sample `u` becomes
the signed value `u - 128`, and the conversion keeps the order of signed samples. -/
theorem audio_conversion_is_offset_binary (b : Byte) :
    (flipSign b).val = b.val ^^^ 0x80
      ∧ b.val ^^^ 0x80 = (b.val + 128) % 256
      ∧ -128 ≤ toSigned b ∧ toSigned b ≤ 127
      ∧ ((flipSign b).val : Int) = toSigned b + 128
      ∧ toSigned (flipSign b) = (b.val : Int) - 128
      ∧ (∀ b2 : Byte, toSigned b < toSigned b2 → (flipSign b).val < (flipSign b2).val) := by
  have hb := b.isLt
  have hv := flipSign_val b
  have hx := xor_0x80_eq_add b
  refine ⟨hv, hx, ?_, ?_, ?_, ?_, ?_⟩
  · unfold toSigned; split <;> omega
  · unfold toSigned; split <;> omega
  · rw [hv, hx]; unfold toSigned; split <;> omega
  · unfold toSigned; rw [hv, hx]; split <;> omega
  · intro b2 h
    have hb2 := b2.isLt
    rw [hv, hx, flipSign_val b2, xor_0x80_eq_add b2]
    unfold toSigned at h
    split at h <;> split at h <;> omega

/-- C17, at the samples `0xff` (signed -1) and `0x00` (signed 0). -/
theorem audio_conversion_is_offset_binary_witness :
    toSigned 0xff < toSigned 0x00 ∧ (flipSign 0xff).val < (flipSign 0x00).val :=
  ⟨by decide, (audio_conversion_is_offset_binary 0xff).2.2.2.2.2.2 0x00 (by decide)⟩

/-- The candidate inverse as arithmetic on the three channel bytes. -/
theorem CONVERT_888_555_eq (v : Nat) :
    CONVERT_888_555 v
      = (v / 524288 % 32) * 1024 + (v / 2048 % 32) * 32 + v / 8 % 32 := by
  have h1 : (v >>> 9) &&& 0x7c00 = ((v >>> 9) / 1024 % 32) * 1024 :=
    and_field_mask (v >>> 9) 10 5
  have h2 : (v >>> 6) &&& 0x3e0 = ((v >>> 6) / 32 % 32) * 32 := and_field_mask (v >>> 6) 5 5
  have h3 : (v >>> 3) &&& 0x1f = (v >>> 3) % 32 := and_low_mask (v >>> 3) 5
  have s9 : v >>> 9 = v / 512 := Nat.shiftRight_eq_div_pow v 9
  have s6 : v >>> 6 = v / 64 := Nat.shiftRight_eq_div_pow v 6
  have s3 : v >>> 3 = v / 8 := Nat.shiftRight_eq_div_pow v 3
  have e1 : (v / 512 / 1024 % 32) * 1024 = 2 ^ 10 * (v / 524288 % 32) := by
    rw [Nat.div_div_eq_div_mul]; omega
  have e2 : (v / 64 / 32 % 32) * 32 = 2 ^ 5 * (v / 2048 % 32) := by
    rw [Nat.div_div_eq_div_mul]; omega
  have b3 : v / 8 % 32 < 2 ^ 5 := Nat.mod_lt _ (by decide)
  have b2 : 2 ^ 5 * (v / 2048 % 32) + v / 8 % 32 < 2 ^ 10 := by omega
  unfold CONVERT_888_555
  rw [h1, h2, h3, s9, s6, s3, e1, e2, Nat.or_assoc, ← Nat.mul_add_lt_is_or b3,
    ← Nat.mul_add_lt_is_or b2]
  omega

/-- C20: on 15-bit inputs `CONVERT_555_888` has the inverse
`((v >> 9) & 0x7c00) | ((v >> 6) & 0x3e0) | ((v >> 3) & 0x1f)` and is therefore
injective: distinct source colours never give the same truecolor value. -/
theorem CONVERT_555_888_injective (n m : Nat) (hn : n < 32768) (hm : m < 32768) :
    CONVERT_888_555 (CONVERT_555_888 n) = n
      ∧ (CONVERT_555_888 n = CONVERT_555_888 m → n = m) := by
  have inv : ∀ k : Nat, k < 32768 → CONVERT_888_555 (CONVERT_555_888 k) = k := by
    intro k hk
    rw [CONVERT_888_555_eq, CONVERT_555_888_eq]
    have hr : k / 1024 % 32 < 32 := Nat.mod_lt _ (by decide)
    have hg : k / 32 % 32 < 32 := Nat.mod_lt _ (by decide)
    have hb : k % 32 < 32 := Nat.mod_lt _ (by decide)
    have hk' : k = (k / 1024 % 32) * 1024 + (k / 32 % 32) * 32 + k % 32 := by omega
    generalize k / 1024 % 32 = r at hr hk' ⊢
    generalize k / 32 % 32 = g at hg hk' ⊢
    generalize k % 32 = b at hb hk' ⊢
    have d1 : (r * 524288 + g * 2048 + b * 8) / 524288 = r := by omega
    have d2 : (r * 524288 + g * 2048 + b * 8) / 2048 = r * 256 + g := by omega
    have d3 : (r * 524288 + g * 2048 + b * 8) / 8 = r * 65536 + g * 256 + b := by omega
    have m1 : r % 32 = r := Nat.mod_eq_of_lt hr
    have m2 : (r * 256 + g) % 32 = g := by omega
    have m3 : (r * 65536 + g * 256 + b) % 32 = b := by omega
    rw [d1, d2, d3, m1, m2, m3]
    exact hk'.symm
  refine ⟨inv n hn, fun h => ?_⟩
  rw [← inv n hn, ← inv m hm, h]

/-- C20, at the colours `0x7fff` and `0x001f`. -/
theorem CONVERT_555_888_injective_witness :
    ((0x7fff : Nat) < 32768 ∧ (0x001f : Nat) < 32768)
      ∧ CONVERT_888_555 (CONVERT_555_888 0x7fff) = 0x7fff :=
  ⟨by decide, (CONVERT_555_888_injective 0x7fff 0x001f (by decide) (by decide)).1⟩

/-! ## The input cells that decompress depends on -/

theorem forLoop_ip_mono (inp : Input) (flags : Nat) :
    ∀ (fuel mask : Nat) (s : State), s.ip ≤ (forLoop inp flags fuel mask s).ip
  | 0, _, _ => Nat.le_refl _
  | fuel + 1, mask, s => by
    rw [forLoop]
    by_cases hm : mask = 0
    · rw [if_pos hm]
    · rw [if_neg hm]
      have h1 := tokenStep_ip_ge inp flags mask s
      have h2 := forLoop_ip_mono inp flags fuel (mask >>> 1) (tokenStep inp flags mask s)
      omega

theorem group_ip_ge (inp : Input) (s : State) : s.ip + 1 ≤ (group inp s).ip := by
  rw [group]
  exact forLoop_ip_mono inp _ 8 0x80 { s with ip := s.ip + 1 }

theorem whileLoop_ip_mono (inp : Input) (stop : Nat) :
    ∀ (fuel : Nat) (s s' : State), whileLoop inp stop fuel s = some s' → s.ip ≤ s'.ip
  | 0, s, s', h => by
    by_cases hs : s.op < stop
    · simp [whileLoop, hs] at h
    · rw [whileLoop_done inp stop 0 s (by omega)] at h
      rw [← Option.some.inj h]
  | fuel + 1, s, s', h => by
    by_cases hs : s.op < stop
    · rw [whileLoop_step inp stop fuel s hs] at h
      have h1 := whileLoop_ip_mono inp stop fuel _ s' h
      have h2 := group_ip_ge inp s
      omega
    · rw [whileLoop_done inp stop _ s (by omega)] at h
      rw [← Option.some.inj h]

/-- A token depends on the block only through the cells below the input cursor it ends
with. -/
theorem tokenStep_input_congr (inp inp' : Input) (flags mask : Nat) (s : State)
    (h : ∀ i : Nat, i < (tokenStep inp flags mask s).ip → inp' i = inp i) :
    tokenStep inp' flags mask s = tokenStep inp flags mask s := by
  by_cases hf : flags &&& mask = 0
  · rw [tokenStep_literal inp flags mask s hf] at h
    rw [tokenStep_literal inp flags mask s hf, tokenStep_literal inp' flags mask s hf,
      h s.ip (by simp only []; omega)]
  · rw [tokenStep_backref inp flags mask s hf, copyLoop_ip] at h
    have e : load16 inp' s.ip = load16 inp s.ip := by
      unfold load16
      rw [h s.ip (by simp only []; omega), h (s.ip + 1) (by simp only []; omega)]
    rw [tokenStep_backref inp flags mask s hf, tokenStep_backref inp' flags mask s hf, e]

theorem forLoop_input_congr (inp inp' : Input) (flags : Nat) :
    ∀ (fuel mask : Nat) (s : State),
      (∀ i : Nat, i < (forLoop inp flags fuel mask s).ip → inp' i = inp i) →
      forLoop inp' flags fuel mask s = forLoop inp flags fuel mask s
  | 0, _, _, _ => rfl
  | fuel + 1, mask, s, h => by
    rw [forLoop] at h ⊢
    rw [forLoop]
    by_cases hm : mask = 0
    · rw [if_pos hm, if_pos hm]
    · rw [if_neg hm] at h
      rw [if_neg hm, if_neg hm]
      have e : tokenStep inp' flags mask s = tokenStep inp flags mask s :=
        tokenStep_input_congr inp inp' flags mask s (fun i hi => h i
          (Nat.lt_of_lt_of_le hi (forLoop_ip_mono inp flags fuel _ _)))
      rw [e]
      exact forLoop_input_congr inp inp' flags fuel _ _ h

/-- A group depends on the block only through the cells below the input cursor it ends
with. -/
theorem group_input_congr (inp inp' : Input) (s : State)
    (h : ∀ i : Nat, i < (group inp s).ip → inp' i = inp i) :
    group inp' s = group inp s := by
  have hge := group_ip_ge inp s
  rw [group] at h ⊢
  rw [group, h s.ip (by rw [← group]; omega)]
  exact forLoop_input_congr inp inp' _ 8 0x80 _ h

theorem whileLoop_input_congr (inp inp' : Input) (stop : Nat) :
    ∀ (fuel : Nat) (s s' : State), whileLoop inp stop fuel s = some s' →
      (∀ i : Nat, i < s'.ip → inp' i = inp i) → whileLoop inp' stop fuel s = some s'
  | 0, s, s', hrun, _ => by
    by_cases hs : s.op < stop
    · simp [whileLoop, hs] at hrun
    · rw [whileLoop_done inp stop 0 s (by omega)] at hrun
      rw [whileLoop_done inp' stop 0 s (by omega)]; exact hrun
  | fuel + 1, s, s', hrun, h => by
    by_cases hs : s.op < stop
    · rw [whileLoop_step inp stop fuel s hs] at hrun
      have hmono := whileLoop_ip_mono inp stop fuel _ s' hrun
      rw [whileLoop_step inp' stop fuel s hs,
        group_input_congr inp inp' s (fun i hi => h i (by omega))]
      exact whileLoop_input_congr inp inp' stop fuel _ s' hrun h
    · rw [whileLoop_done inp stop _ s (by omega)] at hrun
      rw [whileLoop_done inp' stop _ s (by omega)]; exact hrun

/-- The result of `decompress` depends on the block only through the cells below the
input cursor it ends with: those are the cells it reads. -/
theorem decompress_input_congr (inp inp' : Input) (mem : Memory) (s : State)
    (hrun : decompress inp mem = some s)
    (h : ∀ i : Nat, i < s.ip → inp' i = inp i) : decompress inp' mem = some s := by
  have h4 : 4 ≤ s.ip := whileLoop_ip_mono inp _ _ ⟨4, 0, mem⟩ s hrun
  have eL : declaredLength inp' = declaredLength inp := by
    unfold declaredLength load32
    rw [h 0 (by omega), h (0 + 1) (by omega), h (0 + 2) (by omega), h (0 + 3) (by omega)]
  rw [decompress, eL]
  exact whileLoop_input_congr inp inp' _ _ _ s hrun h

/-! ## Claims on the bounds of decompress -/

/-- C13: for every block whose header declares at most 38400 bytes, `decompress` ends with
its input cursor at or below `SAFE_LENGTH = 256 * 2 + 38400 * 2 = 77312`, and its result
is the same for every block with the same first `SAFE_LENGTH` bytes: every cell it reads
(header, control bytes, literals, token bytes, those of the last group included) lies in
the read buffer of `main`. -/
theorem decompress_reads_within_SAFE_LENGTH (inp : Input) (mem : Memory)
    (hL : declaredLength inp ≤ 38400) :
    SAFE_LENGTH = 77312
      ∧ ∃ s, decompress inp mem = some s ∧ s.ip ≤ SAFE_LENGTH
          ∧ ∀ inp' : Input, (∀ i : Nat, i < SAFE_LENGTH → inp' i = inp i) →
              decompress inp' mem = some s := by
  have hS : SAFE_LENGTH = 77312 := by decide
  obtain ⟨s, hrun, _, hle, h0, _, _, _, hip⟩ := decompress_spec inp mem
  have hbound : s.ip ≤ SAFE_LENGTH := by
    rw [hS]
    by_cases hz : declaredLength inp = 0
    · rw [h0 hz]; simp only []; omega
    · have h1 := hle (by omega)
      have h2 := hip (by omega)
      omega
  exact ⟨hS, s, hrun, hbound, fun inp' h =>
    decompress_input_congr inp inp' mem s hrun (fun i hi => h i (by omega))⟩

/-- C13, at the block `10 00 96 00` followed by zeros, which declares 38400 bytes. -/
theorem decompress_reads_within_SAFE_LENGTH_witness :
    declaredLength (blockOf [0x10, 0x00, 0x96, 0x00]) ≤ 38400
      ∧ ∃ s, decompress (blockOf [0x10, 0x00, 0x96, 0x00]) (fun _ => 0) = some s
          ∧ s.ip ≤ SAFE_LENGTH
          ∧ ∀ inp' : Input,
              (∀ i : Nat, i < SAFE_LENGTH → inp' i = blockOf [0x10, 0x00, 0x96, 0x00] i) →
              decompress inp' (fun _ => 0) = some s :=
  ⟨by decide,
    (decompress_reads_within_SAFE_LENGTH (blockOf [0x10, 0x00, 0x96, 0x00]) (fun _ => 0)
      (by decide)).2⟩

/-- C18: `decompress` tests the end only between groups of eight tokens.  When the header
declares no byte it writes none and reads nothing beyond the four header bytes; when it
declares `L >= 1` bytes the number `W` of bytes it writes satisfies `L <= W <= L + 143`;
and a token executed with the cursor at or beyond `L` leaves the first `L` bytes as they
are. -/
theorem decompress_overshoot_bounds (inp : Input) (mem : Memory) :
    ∃ s, decompress inp mem = some s
      ∧ (declaredLength inp = 0 →
          s.op = 0 ∧ s.ip = 4 ∧ s.mem = mem
            ∧ ∀ inp' : Input, (∀ i : Nat, i < 4 → inp' i = inp i) →
                decompress inp' mem = some s)
      ∧ (1 ≤ declaredLength inp →
          declaredLength inp ≤ s.op ∧ s.op ≤ declaredLength inp + 143)
      ∧ (∀ (flags mask : Nat) (t : State), declaredLength inp ≤ t.op →
          ∀ a : Int, a < (declaredLength inp : Int) →
            (tokenStep inp flags mask t).mem a = t.mem a) := by
  obtain ⟨s, hrun, hge, hle, h0, _⟩ := decompress_spec inp mem
  refine ⟨s, hrun, fun hz => ?_, fun h1 => ⟨hge, hle (by omega)⟩,
    fun flags mask t ht a ha => tokenStep_mem_below inp flags mask t a (by omega)⟩
  have e := h0 hz
  refine ⟨by rw [e], by rw [e], by rw [e], fun inp' h => ?_⟩
  exact decompress_input_congr inp inp' mem s hrun (fun i hi => h i (by rw [e] at hi; exact hi))

/-- C18, at the block `10 01 00 00 | 00 | 01 .. 08`, which declares one byte. -/
theorem decompress_overshoot_bounds_witness :
    1 ≤ declaredLength (blockOf [0x10, 0x01, 0x00, 0x00, 0x00, 1, 2, 3, 4, 5, 6, 7, 8])
      ∧ ∃ s, decompress (blockOf [0x10, 0x01, 0x00, 0x00, 0x00, 1, 2, 3, 4, 5, 6, 7, 8])
            (fun _ => 0) = some s
          ∧ declaredLength (blockOf [0x10, 0x01, 0x00, 0x00, 0x00, 1, 2, 3, 4, 5, 6, 7, 8])
              ≤ s.op
          ∧ s.op ≤ declaredLength
              (blockOf [0x10, 0x01, 0x00, 0x00, 0x00, 1, 2, 3, 4, 5, 6, 7, 8]) + 143 := by
  obtain ⟨s, hrun, _, h1, _⟩ := decompress_overshoot_bounds
    (blockOf [0x10, 0x01, 0x00, 0x00, 0x00, 1, 2, 3, 4, 5, 6, 7, 8]) (fun _ => 0)
  exact ⟨by decide, s, hrun, h1 (by decide)⟩

/-- C19: `decompress` terminates on every input.  Each pass of the outer loop executes
exactly eight tokens and moves the output cursor by at least 8 and at most 144 bytes, so
for a declared length `L` the outer loop ends within `ceil(L / 8)` passes. -/
theorem decompress_terminates (inp : Input) (mem : Memory) :
    (∃ s, decompress inp mem = some s
        ∧ ∀ fuel : Nat, (declaredLength inp + 7) / 8 ≤ fuel →
            whileLoop inp (declaredLength inp) fuel ⟨4, 0, mem⟩ = some s)
      ∧ ∀ t : State,
          group inp t
              = tokenStep inp (inp t.ip).val 0x01 (tokenStep inp (inp t.ip).val 0x02
                (tokenStep inp (inp t.ip).val 0x04 (tokenStep inp (inp t.ip).val 0x08
                  (tokenStep inp (inp t.ip).val 0x10 (tokenStep inp (inp t.ip).val 0x20
                    (tokenStep inp (inp t.ip).val 0x40 (tokenStep inp (inp t.ip).val 0x80
                      { t with ip := t.ip + 1 })))))))
            ∧ t.op + 8 ≤ (group inp t).op ∧ (group inp t).op ≤ t.op + 144 := by
  refine ⟨?_, fun t => ⟨group_eq inp t, group_op_ge inp t, group_op_le inp t⟩⟩
  obtain ⟨s, hs, _⟩ := whileLoop_spec inp (declaredLength inp)
    ((declaredLength inp + 7) / 8) ⟨4, 0, mem⟩ (by simp only []; omega)
  have hdec : decompress inp mem = some s := by
    have := whileLoop_fuel_mono inp (declaredLength inp) ((declaredLength inp + 7) / 8)
      (declaredLength inp - (declaredLength inp + 7) / 8) _ s hs
    rw [show (declaredLength inp + 7) / 8 + (declaredLength inp - (declaredLength inp + 7) / 8)
      = declaredLength inp by omega] at this
    exact this
  refine ⟨s, hdec, fun fuel hf => ?_⟩
  have := whileLoop_fuel_mono inp (declaredLength inp) ((declaredLength inp + 7) / 8)
    (fuel - (declaredLength inp + 7) / 8) _ s hs
  rw [show (declaredLength inp + 7) / 8 + (fuel - (declaredLength inp + 7) / 8) = fuel
    by omega] at this
  exact this

/-- C19, at a block declaring 17 bytes: three passes are enough. -/
theorem decompress_terminates_witness :
    (declaredLength (blockOf [0x10, 17, 0, 0]) + 7) / 8 ≤ 3
      ∧ ∃ s, decompress (blockOf [0x10, 17, 0, 0]) (fun _ => 0) = some s
          ∧ whileLoop (blockOf [0x10, 17, 0, 0]) (declaredLength (blockOf [0x10, 17, 0, 0])) 3
              ⟨4, 0, fun _ => 0⟩ = some s := by
  obtain ⟨s, hs, hfuel⟩ := (decompress_terminates (blockOf [0x10, 17, 0, 0]) (fun _ => 0)).1
  exact ⟨by decide, s, hs, hfuel 3 (by decide)⟩

/-! ## The stream and the frame loop of main -/

theorem fread_bytes (f : File) (n : Nat) (buf : Input) :
    (fread f n buf).2.bytes = f.bytes := rfl

theorem fseek_bytes (f : File) (offset : Nat) : (fseek f offset).bytes = f.bytes := rfl

/-- A read that the file can serve in full fills the first `n` cells of the buffer. -/
theorem fread_full (f : File) (n : Nat) (buf : Input) (h : f.pos + n ≤ f.bytes.length) :
    (fread f n buf).1 = (fun i => if i < n then f.bytes.getD (f.pos + i) 0 else buf i)
      ∧ (fread f n buf).2.pos = f.pos + n := by
  have e : min n (f.bytes.length - f.pos) = n := by omega
  unfold fread
  simp only [e]
  exact ⟨trivial, trivial⟩

/-- A read leaves the cells from `n` on as they were. -/
theorem fread_beyond (f : File) (n : Nat) (buf : Input) (i : Nat) (h : n ≤ i) :
    (fread f n buf).1 i = buf i := by
  unfold fread
  simp only []
  rw [if_neg (by omega)]

/-- A read at or past the end of the file leaves the buffer as it was. -/
theorem fread_at_end (f : File) (n : Nat) (buf : Input) (h : f.bytes.length ≤ f.pos) :
    (fread f n buf).1 = buf ∧ (fread f n buf).2.pos = f.pos := by
  have e : min n (f.bytes.length - f.pos) = 0 := by omega
  unfold fread
  simp only [e]
  refine ⟨?_, by trivial⟩
  funext i
  rw [if_neg (by omega)]

/-- A seek and a read that the file can serve in full, into a buffer that is zero from
`n` on, leave in the buffer the `n` bytes of the file at the offset. -/
theorem fread_fseek_full (f : File) (off n : Nat) (buf : Input)
    (h : off + n ≤ f.bytes.length) (hbuf : ∀ k : Nat, n ≤ k → buf k = 0) :
    (fread (fseek f off) n buf).1 = romBlock f.bytes off n := by
  have hfull := (fread_full (fseek f off) n buf h).1
  rw [hfull]
  funext k
  unfold romBlock
  by_cases hk : k < n
  · rw [if_pos hk, if_pos hk]; rfl
  · rw [if_neg hk, if_neg hk]; exact hbuf k (Nat.le_of_not_lt hk)

theorem convert_frame_some (in_image : Input) (in_palette : Nat → Half)
    (image : Memory) (palette : Nat → Nat) :
    ∃ frame statics, convert_frame in_image in_palette image palette = some frame
      ∧ convert_frame_statics in_image in_palette image palette = some statics := by
  obtain ⟨s, hrun, _⟩ := decompress_spec in_image image
  exact ⟨_, _, by rw [convert_frame, hrun]; rfl, by rw [convert_frame_statics, hrun]; rfl⟩

/-- A pass of the frame loop returns, hands one buffer to the muxer, the frame that
`convert_frame` writes from the two buffers just read, and leaves the file as it is. -/
theorem frameStep_spec (frames palettes : Input) (i : Nat) (st : Pipeline) :
    ∃ st', frameStep frames palettes i st = some st'
      ∧ st'.file.bytes = st.file.bytes
      ∧ st'.data = (fread (fseek st.file (fileOffset (load32 frames (4 * i))))
          SAFE_LENGTH st.data).1
      ∧ st'.palette = (fread (fseek (fread (fseek st.file (fileOffset (load32 frames (4 * i))))
          SAFE_LENGTH st.data).2 (fileOffset (load32 palettes (4 * i))))
          (2 * GBA_PALETTE_ENTRIES) st.palette).1
      ∧ ∃ frame, st'.log = st.log ++ [Emitted.video frame]
          ∧ convert_frame st'.data (halfAt st'.palette) st.image st.expanded = some frame := by
  obtain ⟨frame, statics, h1, h2⟩ := convert_frame_some
    (fread (fseek st.file (fileOffset (load32 frames (4 * i)))) SAFE_LENGTH st.data).1
    (halfAt (fread (fseek (fread (fseek st.file (fileOffset (load32 frames (4 * i))))
          SAFE_LENGTH st.data).2 (fileOffset (load32 palettes (4 * i))))
          (2 * GBA_PALETTE_ENTRIES) st.palette).1) st.image st.expanded
  refine ⟨Pipeline.mk
      (fread (fseek (fread (fseek st.file (fileOffset (load32 frames (4 * i))))
          SAFE_LENGTH st.data).2 (fileOffset (load32 palettes (4 * i))))
          (2 * GBA_PALETTE_ENTRIES) st.palette).2
      (fread (fseek st.file (fileOffset (load32 frames (4 * i)))) SAFE_LENGTH st.data).1
      (fread (fseek (fread (fseek st.file (fileOffset (load32 frames (4 * i))))
          SAFE_LENGTH st.data).2 (fileOffset (load32 palettes (4 * i))))
          (2 * GBA_PALETTE_ENTRIES) st.palette).1
      statics.1 statics.2 (st.log ++ [Emitted.video frame]),
    ?_, ?_, ?_, ?_, frame, ?_, ?_⟩
  · rw [frameStep, h1, Option.some_bind, h2, Option.map_some']
  · show (fread (fseek (fread (fseek st.file (fileOffset (load32 frames (4 * i))))
          SAFE_LENGTH st.data).2 (fileOffset (load32 palettes (4 * i))))
          (2 * GBA_PALETTE_ENTRIES) st.palette).2.bytes = st.file.bytes
    rw [fread_bytes, fseek_bytes, fread_bytes, fseek_bytes]
  · rfl
  · rfl
  · rfl
  · exact h1

/-- The frame loop returns after handing `n` frames to the muxer, in index order; the
frame of index `i + j` is what `convert_frame` writes from the ROM bytes at the two
translated table addresses, when the ROM file holds them in full. -/
theorem frameLoop_spec (frames palettes : Input) :
    ∀ (n i : Nat) (st : Pipeline),
      (∀ k : Nat, SAFE_LENGTH ≤ k → st.data k = 0) →
      (∀ k : Nat, 2 * GBA_PALETTE_ENTRIES ≤ k → st.palette k = 0) →
      ∃ (st' : Pipeline) (out : List (List Byte)),
        frameLoop frames palettes n i st = some st'
          ∧ st'.file.bytes = st.file.bytes
          ∧ st'.log = st.log ++ out.map Emitted.video
          ∧ out.length = n
          ∧ ∀ j : Nat, j < n →
              fileOffset (load32 frames (4 * (i + j))) + SAFE_LENGTH ≤ st.file.bytes.length →
              fileOffset (load32 palettes (4 * (i + j))) + 2 * GBA_PALETTE_ENTRIES
                ≤ st.file.bytes.length →
              ∃ (image : Memory) (expanded : Nat → Nat),
                out[j]? = convert_frame
                  (romBlock st.file.bytes (fileOffset (load32 frames (4 * (i + j)))) SAFE_LENGTH)
                  (halfAt (romBlock st.file.bytes (fileOffset (load32 palettes (4 * (i + j))))
                    (2 * GBA_PALETTE_ENTRIES)))
                  image expanded
  | 0, i, st, _, _ => ⟨st, [], rfl, rfl, by simp, rfl, fun j hj => absurd hj (Nat.not_lt_zero _)⟩
  | n + 1, i, st, hd, hp => by
    obtain ⟨st1, hstep, hbytes, hdata, hpal, frame, hlog, hframe⟩ :=
      frameStep_spec frames palettes i st
    have hd1 : ∀ k : Nat, SAFE_LENGTH ≤ k → st1.data k = 0 := by
      intro k hk
      rw [hdata, fread_beyond _ _ _ k hk]
      exact hd k hk
    have hp1 : ∀ k : Nat, 2 * GBA_PALETTE_ENTRIES ≤ k → st1.palette k = 0 := by
      intro k hk
      rw [hpal, fread_beyond _ _ _ k hk]
      exact hp k hk
    obtain ⟨st', out, hrun, hb', hlog', hlen, hout⟩ :=
      frameLoop_spec frames palettes n (i + 1) st1 hd1 hp1
    refine ⟨st', frame :: out, ?_, by rw [hb', hbytes], ?_, by rw [List.length_cons, hlen],
      ?_⟩
    · rw [frameLoop, hstep]
      exact hrun
    · rw [hlog', hlog, List.map_cons, List.append_assoc]
      rfl
    · intro j hj hf hq
      cases j with
      | zero =>
        rw [Nat.add_zero] at hf hq ⊢
        refine ⟨st.image, st.expanded, ?_⟩
        have e1 : st1.data = romBlock st.file.bytes (fileOffset (load32 frames (4 * i)))
            SAFE_LENGTH := by
          rw [hdata]
          exact fread_fseek_full st.file _ SAFE_LENGTH st.data hf hd
        have e2 : st1.palette = romBlock st.file.bytes (fileOffset (load32 palettes (4 * i)))
            (2 * GBA_PALETTE_ENTRIES) := by
          rw [hpal]
          have hq' : fileOffset (load32 palettes (4 * i)) + 2 * GBA_PALETTE_ENTRIES
              ≤ (fread (fseek st.file (fileOffset (load32 frames (4 * i)))) SAFE_LENGTH
                  st.data).2.bytes.length := by
            rw [fread_bytes, fseek_bytes]; exact hq
          have := fread_fseek_full
            (fread (fseek st.file (fileOffset (load32 frames (4 * i)))) SAFE_LENGTH st.data).2
            _ (2 * GBA_PALETTE_ENTRIES) st.palette hq' hp
          rw [fread_bytes, fseek_bytes] at this
          exact this
        rw [← e1, ← e2, hframe, List.getElem?_cons_zero]
      | succ j =>
        have ei : i + (j + 1) = i + 1 + j := by omega
        rw [ei] at hf hq ⊢
        rw [← hbytes] at hf hq ⊢
        obtain ⟨image, expanded, h⟩ := hout j (by omega) hf hq
        exact ⟨image, expanded, by rw [List.getElem?_cons_succ]; exact h⟩

/-- The run of `main` returns on every ROM file, having handed to the muxer 1606 frames
and then one audio block. -/
theorem main_spec (rom : List Byte) :
    ∃ (out : List (List Byte)) (block : List Byte),
      main rom = some (out.map Emitted.video ++ [Emitted.audio block])
        ∧ out.length = IQUE_NUM_FRAMES
        ∧ ∀ i : Nat, i < IQUE_NUM_FRAMES →
            fileOffset (load32 (frameTable rom) (4 * i)) + SAFE_LENGTH ≤ rom.length →
            fileOffset (load32 (paletteTable rom) (4 * i)) + 2 * GBA_PALETTE_ENTRIES
              ≤ rom.length →
            ∃ (image : Memory) (expanded : Nat → Nat),
              out[i]? = convert_frame
                (romBlock rom (fileOffset (load32 (frameTable rom) (4 * i))) SAFE_LENGTH)
                (halfAt (romBlock rom (fileOffset (load32 (paletteTable rom) (4 * i)))
                  (2 * GBA_PALETTE_ENTRIES)))
                image expanded := by
  obtain ⟨st', out, hrun, _, hlog, hlen, hout⟩ :=
    frameLoop_spec (frameTable rom) (paletteTable rom) IQUE_NUM_FRAMES 0
      { file := (fread (fread (fseek ⟨rom, 0⟩ IQUE_FRAME_TABLE_LOCATION) (4 * IQUE_NUM_FRAMES)
          (fun _ => 0)).2 (4 * IQUE_NUM_FRAMES) (fun _ => 0)).2,
        data := fun _ => 0, palette := fun _ => 0, image := fun _ => 0,
        expanded := fun _ => 0, log := [] }
      (fun _ _ => rfl) (fun _ _ => rfl)
  refine ⟨out, convertAudio IQUE_AUDIO_LENGTH ((List.range IQUE_AUDIO_LENGTH).map
    (fread (fseek st'.file IQUE_AUDIO_LOCATION) IQUE_AUDIO_LENGTH (fun _ => 0)).1), ?_, hlen,
    fun i hi hf hq => ?_⟩
  · rw [main, hrun, Option.map_some', hlog, List.nil_append]
  · have := hout i hi (by rw [Nat.zero_add]; exact hf) (by rw [Nat.zero_add]; exact hq)
    rw [Nat.zero_add] at this
    exact this

/-! ## The address tables -/

/-- A read that the file can serve in full, into a buffer that is zero from `n` on,
leaves in the buffer the `n` bytes of the file at its position. -/
theorem fread_at (f : File) (n : Nat) (buf : Input)
    (h : f.pos + n ≤ f.bytes.length) (hbuf : ∀ k : Nat, n ≤ k → buf k = 0) :
    (fread f n buf).1 = romBlock f.bytes f.pos n := by
  rw [(fread_full f n buf h).1]
  funext k
  unfold romBlock
  by_cases hk : k < n
  · rw [if_pos hk, if_pos hk]
  · rw [if_neg hk, if_neg hk]; exact hbuf k (Nat.le_of_not_lt hk)

/-- When the ROM file holds the frame table in full, `frames` is that part of the
file. -/
theorem frameTable_full (rom : List Byte)
    (h : IQUE_FRAME_TABLE_LOCATION + 4 * IQUE_NUM_FRAMES ≤ rom.length) :
    frameTable rom = romBlock rom IQUE_FRAME_TABLE_LOCATION (4 * IQUE_NUM_FRAMES) :=
  fread_fseek_full ⟨rom, 0⟩ IQUE_FRAME_TABLE_LOCATION (4 * IQUE_NUM_FRAMES) (fun _ => 0) h
    (fun _ _ => rfl)

/-- When the ROM file holds both tables in full, `palettes` is the part of the file that
follows the frame table. -/
theorem paletteTable_full (rom : List Byte)
    (h : IQUE_FRAME_TABLE_LOCATION + 4 * IQUE_NUM_FRAMES + 4 * IQUE_NUM_FRAMES ≤ rom.length) :
    paletteTable rom
      = romBlock rom (IQUE_FRAME_TABLE_LOCATION + 4 * IQUE_NUM_FRAMES) (4 * IQUE_NUM_FRAMES) := by
  have h1 : (fseek ⟨rom, 0⟩ IQUE_FRAME_TABLE_LOCATION).pos + 4 * IQUE_NUM_FRAMES
      ≤ (fseek ⟨rom, 0⟩ IQUE_FRAME_TABLE_LOCATION).bytes.length :=
    Nat.le_trans (Nat.le_add_right _ _) h
  have hpos : (fread (fseek ⟨rom, 0⟩ IQUE_FRAME_TABLE_LOCATION) (4 * IQUE_NUM_FRAMES)
      (fun _ => 0)).2.pos = IQUE_FRAME_TABLE_LOCATION + 4 * IQUE_NUM_FRAMES :=
    (fread_full (fseek ⟨rom, 0⟩ IQUE_FRAME_TABLE_LOCATION) (4 * IQUE_NUM_FRAMES)
      (fun _ => 0) h1).2
  have hbytes : (fread (fseek ⟨rom, 0⟩ IQUE_FRAME_TABLE_LOCATION) (4 * IQUE_NUM_FRAMES)
      (fun _ => 0)).2.bytes = rom :=
    fread_bytes (fseek ⟨rom, 0⟩ IQUE_FRAME_TABLE_LOCATION) (4 * IQUE_NUM_FRAMES) (fun _ => 0)
  have := fread_at (fread (fseek ⟨rom, 0⟩ IQUE_FRAME_TABLE_LOCATION) (4 * IQUE_NUM_FRAMES)
      (fun _ => 0)).2 (4 * IQUE_NUM_FRAMES) (fun _ => 0)
      (by rw [hpos, hbytes]; exact h) (fun _ _ => rfl)
  rw [hpos, hbytes] at this
  exact this

theorem romBlock_apply (rom : List Byte) (off n k : Nat) (h : k < n) :
    romBlock rom off n k = rom.getD (off + k) 0 := by
  unfold romBlock
  rw [if_pos h]

theorem load32_romBlock (rom : List Byte) (off n j : Nat) (h : j + 3 < n) :
    load32 (romBlock rom off n) j = load32 (fun k => rom.getD k 0) (off + j) := by
  unfold load32
  rw [romBlock_apply rom off n j (by omega), romBlock_apply rom off n (j + 1) (by omega),
    romBlock_apply rom off n (j + 2) (by omega), romBlock_apply rom off n (j + 3) (by omega)]
  rfl

/-! ## Claims on main -/

/-- C12: the palette table is read right after the `N`-entry frame table, without a seek,
and the documented offsets agree with that: `IQUE_FRAME_TABLE_LOCATION + 4 * N =
IQUE_PALETTE_TABLE_LOCATION` (`0xb0bfb8 + 4 * 1606 = 0xb0d8d0`); so on a ROM file that
holds both tables, entry `i` of `palettes` is the little-endian 32-bit word at offset
`IQUE_PALETTE_TABLE_LOCATION + 4 * i`, for every `i < N`. -/
theorem palette_table_at_documented_offset (rom : List Byte)
    (h : IQUE_PALETTE_TABLE_LOCATION + 4 * IQUE_NUM_FRAMES ≤ rom.length)
    (i : Nat) (hi : i < IQUE_NUM_FRAMES) :
    IQUE_FRAME_TABLE_LOCATION + 4 * IQUE_NUM_FRAMES = IQUE_PALETTE_TABLE_LOCATION
      ∧ 0xb0bfb8 + 4 * 1606 = 0xb0d8d0
      ∧ load32 (paletteTable rom) (4 * i)
          = load32 (fun k => rom.getD k 0) (IQUE_PALETTE_TABLE_LOCATION + 4 * i) := by
  have e : IQUE_FRAME_TABLE_LOCATION + 4 * IQUE_NUM_FRAMES = IQUE_PALETTE_TABLE_LOCATION := by
    decide
  refine ⟨e, by decide, ?_⟩
  rw [paletteTable_full rom (by rw [e]; exact h), e]
  exact load32_romBlock rom _ _ _ (by omega)

theorem sampleRom_length : sampleRom.length = 12000000 := List.length_replicate _ _

theorem sampleRom_getD (k : Nat) (h : k < 12000000) : sampleRom.getD k 0 = 8 := by
  rw [sampleRom, List.getD_eq_getElem?_getD, List.getElem?_replicate, if_pos h]
  rfl

theorem sampleRom_load32 (j : Nat) (h : j + 3 < 12000000) :
    load32 (fun k => sampleRom.getD k 0) j = 0x08080808 := by
  unfold load32
  simp only []
  rw [sampleRom_getD j (by omega), sampleRom_getD (j + 1) (by omega),
    sampleRom_getD (j + 2) (by omega), sampleRom_getD (j + 3) (by omega)]
  rfl

theorem fileOffset_sample : fileOffset 0x08080808 = 0x80808 := by
  unfold fileOffset GBA_ROM_LOAD_ADDRESS
  decide

theorem sampleRom_frame_address :
    load32 (frameTable sampleRom) (4 * 0) = 0x08080808 := by
  rw [frameTable_full sampleRom (by rw [sampleRom_length]; decide),
    load32_romBlock _ _ _ _ (by decide), sampleRom_load32 _ (by decide)]

theorem sampleRom_palette_address :
    load32 (paletteTable sampleRom) (4 * 0) = 0x08080808 := by
  rw [paletteTable_full sampleRom (by rw [sampleRom_length]; decide),
    load32_romBlock _ _ _ _ (by decide), sampleRom_load32 _ (by decide)]

/-- C12, at the example ROM file and entry 0. -/
theorem palette_table_at_documented_offset_witness :
    IQUE_PALETTE_TABLE_LOCATION + 4 * IQUE_NUM_FRAMES ≤ sampleRom.length
      ∧ 0 < IQUE_NUM_FRAMES
      ∧ load32 (paletteTable sampleRom) (4 * 0)
          = load32 (fun k => sampleRom.getD k 0) (IQUE_PALETTE_TABLE_LOCATION + 4 * 0) :=
  ⟨by rw [sampleRom_length]; decide, by decide,
    (palette_table_at_documented_offset sampleRom (by rw [sampleRom_length]; decide) 0
      (by decide)).2.2⟩

/-- C11: on every ROM file the run of `main` hands to the muxer exactly `N = 1606` video
frames and then exactly one audio block, in that order; the frame of index `i` is what
`convert_frame` writes from the ROM bytes at offset `frame_table[i] - load_base` and the
palette at offset `palette_table[i] - load_base` (with the static arrays as the earlier
calls left them), when the ROM file holds those bytes in full. -/
theorem main_emits_frames_then_audio (rom : List Byte) :
    IQUE_NUM_FRAMES = 1606
      ∧ ∃ (out : List (List Byte)) (block : List Byte),
          main rom = some (out.map Emitted.video ++ [Emitted.audio block])
            ∧ out.length = IQUE_NUM_FRAMES
            ∧ ∀ i : Nat, i < IQUE_NUM_FRAMES →
                fileOffset (load32 (frameTable rom) (4 * i)) + SAFE_LENGTH ≤ rom.length →
                fileOffset (load32 (paletteTable rom) (4 * i)) + 2 * GBA_PALETTE_ENTRIES
                  ≤ rom.length →
                ∃ (image : Memory) (expanded : Nat → Nat),
                  out[i]? = convert_frame
                    (romBlock rom (fileOffset (load32 (frameTable rom) (4 * i))) SAFE_LENGTH)
                    (halfAt (romBlock rom (fileOffset (load32 (paletteTable rom) (4 * i)))
                      (2 * GBA_PALETTE_ENTRIES)))
                    image expanded :=
  ⟨rfl, main_spec rom⟩

/-- C11, at the example ROM file and frame 0, whose block and palette lie at offset
`0x80808`. -/
theorem main_emits_frames_then_audio_witness :
    fileOffset (load32 (frameTable sampleRom) (4 * 0)) + SAFE_LENGTH ≤ sampleRom.length
      ∧ fileOffset (load32 (paletteTable sampleRom) (4 * 0)) + 2 * GBA_PALETTE_ENTRIES
          ≤ sampleRom.length
      ∧ ∃ (out : List (List Byte)) (block : List Byte),
          main sampleRom = some (out.map Emitted.video ++ [Emitted.audio block])
            ∧ out.length = IQUE_NUM_FRAMES
            ∧ ∃ (image : Memory) (expanded : Nat → Nat),
                out[0]? = convert_frame
                  (romBlock sampleRom (fileOffset (load32 (frameTable sampleRom) (4 * 0)))
                    SAFE_LENGTH)
                  (halfAt (romBlock sampleRom
                    (fileOffset (load32 (paletteTable sampleRom) (4 * 0)))
                    (2 * GBA_PALETTE_ENTRIES)))
                  image expanded := by
  have hf : fileOffset (load32 (frameTable sampleRom) (4 * 0)) + SAFE_LENGTH
      ≤ sampleRom.length := by
    rw [sampleRom_frame_address, fileOffset_sample, sampleRom_length]; decide
  have hq : fileOffset (load32 (paletteTable sampleRom) (4 * 0)) + 2 * GBA_PALETTE_ENTRIES
      ≤ sampleRom.length := by
    rw [sampleRom_palette_address, fileOffset_sample, sampleRom_length]; decide
  obtain ⟨out, block, hmain, hlen, hframes⟩ := (main_emits_frames_then_audio sampleRom).2
  exact ⟨hf, hq, out, block, hmain, hlen, hframes 0 (by decide) hf hq⟩

/-- C14 (the code departs from the claim): on an empty ROM file no table entry can be
read, yet the run goes on: both tables keep the zeros they started with, and `main`
still hands 1606 frames and an audio block to the muxer and returns. -/
theorem main_ignores_short_reads :
    (∀ k : Nat, frameTable [] k = 0) ∧ (∀ k : Nat, paletteTable [] k = 0)
      ∧ ∃ (out : List (List Byte)) (block : List Byte),
          main [] = some (out.map Emitted.video ++ [Emitted.audio block])
            ∧ out.length = 1606 := by
  have h1 := fread_at_end (fseek ⟨[], 0⟩ IQUE_FRAME_TABLE_LOCATION) (4 * IQUE_NUM_FRAMES)
    (fun _ => 0) (Nat.zero_le _)
  have h2 := fread_at_end (fread (fseek ⟨[], 0⟩ IQUE_FRAME_TABLE_LOCATION)
    (4 * IQUE_NUM_FRAMES) (fun _ => 0)).2 (4 * IQUE_NUM_FRAMES) (fun _ => 0) (Nat.zero_le _)
  obtain ⟨out, block, hmain, hlen, _⟩ := main_spec []
  refine ⟨fun k => ?_, fun k => ?_, out, block, hmain, hlen⟩
  · rw [frameTable, h1.1]
  · rw [paletteTable, h2.1]

end Iquedec
